import Mathlib

/-!
Verification development for the PDF extraction core of the research-agent
repository (`src/pdf_extractor.py`).  Python strings are embedded as
`List Char`, Python ints/floats used as sizes and coordinates as `ℚ`/`ℤ`/`ℕ`,
and each Python function of the extraction core is translated into an
executable Lean definition.  The `while` loop of `chunk_text` is embedded with
an explicit fuel parameter (value `none` means the fuel was exhausted, which
for a loop whose index provably never advances holds for every fuel and so
models non-termination).
-/

/-- ASCII whitespace, matching Python's `str.strip` / `\s` on ASCII text. -/
def isSpaceChar (c : Char) : Bool :=
  c = ' ' || c = '\t' || c = '\n' || c = '\r' || c = '\x0b' || c = '\x0c'

/-- ASCII digit, matching `\d` on ASCII text. -/
def isDigitChar (c : Char) : Bool :=
  '0' ≤ c && c ≤ '9'

/-- Python `str.strip()`: remove leading and trailing whitespace. -/
def pyStrip (s : List Char) : List Char :=
  ((s.dropWhile isSpaceChar).reverse.dropWhile isSpaceChar).reverse

/-!
Chunker (`chunk_text`, src/pdf_extractor.py lines 299-330)

Python slice and `str.rfind` semantics, including negative-index handling,
are embedded faithfully; loop positions are integers (`start` can in
principle go negative in the source, so the embedding uses `ℤ`).
-/

/-- Normalize a Python slice/rfind index against a string of length `L`:
negative indices count from the end (clamped at 0), positive ones are
clamped at `L`. -/
def pyNormIdx (L : ℕ) (i : ℤ) : ℕ :=
  if i < 0 then ((L : ℤ) + i).toNat else min i.toNat L

/-- Python `s[a:b]`. -/
def pySlice (s : List Char) (a b : ℤ) : List Char :=
  (s.drop (pyNormIdx s.length a)).take (pyNormIdx s.length b - pyNormIdx s.length a)

/-- Is `"\n\n"` present at offset `k` of `s`? -/
def nl2At (s : List Char) (k : ℕ) : Bool :=
  s.get? k = some '\n' && s.get? (k + 1) = some '\n'

/-- Python `s.rfind('\n\n', i, j)`: highest `k` with `i' ≤ k`, `k + 2 ≤ j'`
and a double newline at `k`, else `-1`. -/
def pyRfind2nl (s : List Char) (i j : ℤ) : ℤ :=
  match ((List.range s.length).filter
      (fun k => decide (pyNormIdx s.length i ≤ k)
        && decide (k + 2 ≤ pyNormIdx s.length j) && nl2At s k)).getLast? with
  | some k => (k : ℤ)
  | none => -1

/-- The `while start < len(text)` loop of `chunk_text`, with fuel.
Each iteration computes `end = start + chunk_size`, optionally shrinks it to
a paragraph break found by `rfind('\n\n', start + chunk_size - overlap, end)`
when that break lies strictly after `start`, emits `text[start:end]` and sets
`start = end - overlap`. -/
def chunkEnd (text : List Char) (cs ov : ℕ) (start : ℤ) : ℤ :=
  if start + (cs : ℤ) < (text.length : ℤ) then
    if start < pyRfind2nl text (start + (cs : ℤ) - (ov : ℤ)) (start + (cs : ℤ)) then
      pyRfind2nl text (start + (cs : ℤ) - (ov : ℤ)) (start + (cs : ℤ))
    else start + (cs : ℤ)
  else start + (cs : ℤ)

def chunkLoop (text : List Char) (cs ov : ℕ) : ℕ → ℤ → Option (List (List Char))
  | 0, _ => none
  | fuel + 1, start =>
    if start < (text.length : ℤ) then
      match chunkLoop text cs ov fuel (chunkEnd text cs ov start - (ov : ℤ)) with
      | none => none
      | some rest => some (pySlice text start (chunkEnd text cs ov start) :: rest)
    else some []

/-- The function `chunk_text(text, chunk_size, overlap)`: returns `[text]` unchanged when
`len(text) <= chunk_size`, otherwise runs the chunking loop from `start = 0`.
`none` means the given fuel did not suffice (the source loop did not
terminate within that many iterations). -/
def chunk_text (text : List Char) (cs ov : ℕ) (fuel : ℕ) : Option (List (List Char)) :=
  if text.length ≤ cs then some [text] else chunkLoop text cs ov fuel 0

/-!
Identifier Extractor (`extract_citations_from_text`,
src/pdf_extractor.py lines 263-296)

The three regular expressions of the source are deterministic (all their
quantifiers are maximal-munch: each greedy class excludes the character that
must follow, so the backtracking engine accepts exactly the maximal run).
Each regex is embedded as a `Step`: a partial scanner that either matches a
prefix of its input and returns `(matched prefix, rest)`, or fails.
`re.finditer` is embedded by `findAll`: scan left to right, on failure
advance one character, on a match continue after it (non-overlapping
leftmost matching).
-/

/-- A prefix scanner: `some (m, r)` means the pattern matched the prefix `m`
of the input leaving `r`. -/
def Step : Type := List Char → Option (List Char × List Char)

/-- Match the single character `c`. -/
def stepChar (c : Char) : Step := fun s =>
  match s with
  | x :: r => if x = c then some ([x], r) else none
  | [] => none

/-- Match the fixed word `w` case-insensitively (`w` is given in lower
case); the matched prefix keeps the input's original casing, as Python's
`re.IGNORECASE` match does. -/
def stepCIWord (w : List Char) : Step := fun s =>
  if (s.take w.length).map Char.toLower = w then some (s.take w.length, s.drop w.length)
  else none

/-- Match the maximal run of characters satisfying `p` (Python's greedy
`[...]*` / `[...]+` followed by a character outside the class), requiring at
least `lo` characters. -/
def stepRun (p : Char → Bool) (lo : ℕ) : Step := fun s =>
  if lo ≤ (s.takeWhile p).length then some (s.takeWhile p, s.drop (s.takeWhile p).length)
  else none

/-- Match a maximal-munch bounded run (`{lo,hi}` greedy): up to `hi`
characters of the maximal `p`-run, at least `lo`. -/
def stepRunBounded (p : Char → Bool) (lo hi : ℕ) : Step := fun s =>
  if lo ≤ ((s.takeWhile p).take hi).length then
    some ((s.takeWhile p).take hi, s.drop ((s.takeWhile p).take hi).length)
  else none

/-- Sequencing of scanners (regex concatenation). -/
def stepSeq (a b : Step) : Step := fun s =>
  match a s with
  | some (m1, r1) =>
    match b r1 with
    | some (m2, r2) => some (m1 ++ m2, r2)
    | none => none
  | none => none

/-- Optional part `a?` (greedy, but in the source patterns the optional
part is final so no backtracking arises). -/
def stepOpt (a : Step) : Step := fun s =>
  match a s with
  | some mr => some mr
  | none => some ([], s)

/-- Ordered alternation `a|b` (the source alternatives start with distinct
characters, so ordering never matters). -/
def stepAlt (a b : Step) : Step := fun s =>
  match a s with
  | some mr => some mr
  | none => b s

/-- Character allowed in the DOI suffix: `[^\s\]>,]`. -/
def isDoiTailChar (c : Char) : Bool :=
  !(isSpaceChar c) && !(c = ']') && !(c = '>') && !(c = ',')

/-- Separator characters of the PMID pattern: `[:\s]`. -/
def isPmidSepChar (c : Char) : Bool :=
  c = ':' || isSpaceChar c

/-- The DOI pattern `(10\.\d{4,}/[^\s\]>,]+)`. -/
def matchDoi : Step :=
  stepSeq (stepChar '1') (stepSeq (stepChar '0') (stepSeq (stepChar '.')
    (stepSeq (stepRun isDigitChar 4) (stepSeq (stepChar '/') (stepRun isDoiTailChar 1)))))

/-- The arXiv pattern `arXiv:(\d{4}\.\d{4,5}(?:v\d+)?)` with `IGNORECASE`. -/
def matchArxiv : Step :=
  stepSeq (stepCIWord "arxiv:".toList)
    (stepSeq (stepRunBounded isDigitChar 4 4) (stepSeq (stepChar '.')
      (stepSeq (stepRunBounded isDigitChar 4 5)
        (stepOpt (stepSeq (stepCIWord "v".toList) (stepRun isDigitChar 1))))))

/-- The PMID pattern `PMID[:\s]*(\d+)` with `IGNORECASE`. -/
def matchPmid : Step :=
  stepSeq (stepCIWord "pmid".toList)
    (stepSeq (stepRun isPmidSepChar 0) (stepRun isDigitChar 1))

/-- Embedding of `re.finditer`: all non-overlapping matches, scanning left to right.
Fuelled; `findAll` supplies enough fuel for any scanner that consumes at
least one character per match. -/
def findAllAux (st : Step) : ℕ → List Char → List (List Char)
  | 0, _ => []
  | _ + 1, [] => []
  | fuel + 1, c :: cs =>
    match st (c :: cs) with
    | some (m, r) => m :: findAllAux st fuel r
    | none => findAllAux st fuel cs

def findAll (st : Step) (s : List Char) : List (List Char) :=
  findAllAux st (s.length + 1) s

/-- Trailing-punctuation strip applied to each DOI:
`re.sub(r'[.,;:\]>]+$', '', doi)`. -/
def isTrailPunct (c : Char) : Bool :=
  c = '.' || c = ',' || c = ';' || c = ':' || c = ']' || c = '>'

def stripTrailPunct (s : List Char) : List Char :=
  (s.reverse.dropWhile isTrailPunct).reverse

inductive CitKind
  | doi
  | arxiv
  | pmid
deriving DecidableEq, Repr

/-- One citation record.  The source dict `{"type": k, "id": i, k: i}`
carries the id twice; both copies equal `id`, so the record is `(kind, id)`. -/
structure Citation where
  kind : CitKind
  id : List Char
deriving DecidableEq, Repr

/-- The source's deduplication key `(cit["type"], cit["id"])`. -/
def citeKey (c : Citation) : CitKind × List Char :=
  (c.kind, c.id)

/-- The DOI pass: each finditer match, with trailing punctuation stripped. -/
def doiCits (t : List Char) : List Citation :=
  (findAll matchDoi t).map (fun m => ⟨.doi, stripTrailPunct m⟩)

/-- The arXiv pass: group 1 excludes the 6-character `arXiv:` trigger. -/
def arxivCits (t : List Char) : List Citation :=
  (findAll matchArxiv t).map (fun m => ⟨.arxiv, m.drop 6⟩)

/-- The PMID pass: group 1 is the trailing digit run of the match. -/
def pmidCits (t : List Char) : List Citation :=
  (findAll matchPmid t).map (fun m => ⟨.pmid, (m.reverse.takeWhile isDigitChar).reverse⟩)

/-- All raw citation records in the order the source appends them:
all DOIs, then all arXiv ids, then all PMIDs. -/
def rawCitations (t : List Char) : List Citation :=
  doiCits t ++ arxivCits t ++ pmidCits t

/-- The `seen`-set deduplication loop of the source (first occurrence of
each `(type, id)` key wins, insertion order preserved); `seen` is the list
of keys already emitted. -/
def dedupFrom (seen : List (CitKind × List Char)) : List Citation → List Citation
  | [] => []
  | c :: cs =>
    if citeKey c ∈ seen then dedupFrom seen cs
    else c :: dedupFrom (citeKey c :: seen) cs

/-- The function `extract_citations_from_text`. -/
def extract_citations_from_text (t : List Char) : List Citation :=
  dedupFrom [] (rawCitations t)

/-!
Scanner properties

The idempotence analysis needs three facts about each identifier scanner:
it consumes exactly a prefix (`StepSound`), a nonempty one (`StepProg`), and
its behaviour at a position is unchanged by truncating the input at the
first comma at or after that position (`StepCL`) — no identifier pattern of
the source can match or look past a `','`.
-/

def notComma (c : Char) : Bool := !(c = ',')

def StepSound (st : Step) : Prop :=
  ∀ s m r, st s = some (m, r) → s = m ++ r

def StepProg (st : Step) : Prop :=
  ∀ s m r, st s = some (m, r) → m ≠ []

def StepCL (st : Step) : Prop :=
  ∀ s, st (s.takeWhile notComma) =
    (st s).map (fun p => (p.1, p.2.takeWhile notComma))

/-!
The deduplication loop
-/

/-- The `seen` set after the dedup loop has processed `u`. -/
def seenAfter (seen : List (CitKind × List Char)) : List Citation → List (CitKind × List Char)
  | [] => seen
  | c :: cs =>
    if citeKey c ∈ seen then seenAfter seen cs else seenAfter (citeKey c :: seen) cs

/-!
Page blocks: dominant font size (C3), table detection (C9),
title/author inference (C5)

`src/pdf_extractor.py` lines 117-123, 126-171, 174-206.  Font sizes and
coordinates are embedded as `ℚ` (the claims only use counting, comparison
and arithmetic on them).
-/

/-- One text span of a block: `{"text": ..., "size": ...}`.  The source
reads `span.get("size", 12)`; the embedding gives every span its size. -/
structure Span where
  text : List Char
  size : ℚ
deriving DecidableEq, Repr

/-- One raw text block of `page.get_text("dict")["blocks"]`: a bbox
`(x0, y0, x1, y1)` and lines of spans. -/
structure PdfBlock where
  x0 : ℚ
  y0 : ℚ
  x1 : ℚ
  y1 : ℚ
  lines : List (List Span)
deriving DecidableEq, Repr

/-- The flat list of span sizes in scan order (lines, then spans). -/
def blockSizes (b : PdfBlock) : List ℚ :=
  (b.lines.map (fun l => l.map Span.size)).flatten

/-- Python `max(iterable, key=sizes.count)`: scan the iterable keeping the
current element unless a strictly larger key appears.  (On an empty iterable
Python raises; the `12` default is unreachable under the caller's guard.) -/
def pyMaxByCount (sizes : List ℚ) : List ℚ → ℚ
  | [] => 12
  | x :: xs => xs.foldl (fun best y => if sizes.count best < sizes.count y then y else best) x

/-- The iteration order of the Python set `set(sizes)` is
implementation-defined (hash-based), so the embedding takes it as a
parameter: any duplicate-free enumeration of exactly the distinct sizes. -/
def ValidSetOrder (b : PdfBlock) (order : List ℚ) : Prop :=
  order.Nodup ∧ (∀ x ∈ order, x ∈ blockSizes b) ∧ (∀ x ∈ blockSizes b, x ∈ order)

instance (b : PdfBlock) (order : List ℚ) : Decidable (ValidSetOrder b order) :=
  instDecidableAnd

/-- The function `_get_dominant_font_size`: `max(set(sizes), key=sizes.count) if sizes
else 12`. -/
def get_dominant_font_size (b : PdfBlock) (order : List ℚ) : ℚ :=
  if blockSizes b = [] then 12 else pyMaxByCount (blockSizes b) order

/-- First-occurrence deduplication in scan order. -/
def firstDedupAux {α : Type} [DecidableEq α] : List α → List α → List α
  | [], _ => []
  | x :: xs, seen =>
    if x ∈ seen then firstDedupAux xs seen else x :: firstDedupAux xs (x :: seen)

def firstDedup {α : Type} [DecidableEq α] (l : List α) : List α :=
  firstDedupAux l []

/-- Modelled from the spec: "ties resolved by whichever value is
encountered first when scanning spans in order" — the mode computed with
the candidate values enumerated in first-occurrence scan order. -/
def specDominantFirstScan (b : PdfBlock) : ℚ :=
  pyMaxByCount (blockSizes b) (firstDedup (blockSizes b))

/-- The function `_get_block_text`: concatenate the span texts of each line, appending
one space per line. -/
def get_block_text (b : PdfBlock) : List Char :=
  (b.lines.map (fun l => (l.map Span.text).flatten ++ [' '])).flatten

/-- Floor of a rational, computed directly (kernel-reducible). -/
def ratFloor (q : ℚ) : ℤ :=
  Int.fdiv q.num (q.den : ℤ)

/-- Python 3 `round` on exact values: round-half-to-even. -/
def pyRound (q : ℚ) : ℤ :=
  if q - (ratFloor q : ℚ) < 1/2 then ratFloor q
  else if 1/2 < q - (ratFloor q : ℚ) then ratFloor q + 1
  else if ratFloor q % 2 = 0 then ratFloor q else ratFloor q + 1

/-- The vertical bucket of a block:
`round(((bbox[1] + bbox[3]) / 2) / 10) * 10`. -/
def bucketOf (b : PdfBlock) : ℤ :=
  pyRound (((b.y0 + b.y1) / 2) / 10) * 10

/-- One heuristic table-row record. -/
structure TableRow where
  page : ℕ
  content : List Char
  y_position : ℤ
deriving DecidableEq, Repr

/-- Sort key for row blocks: ascending `bbox[0]`. -/
def xLe (a b : PdfBlock) : Prop :=
  a.x0 ≤ b.x0

instance : DecidableRel xLe := fun a b =>
  decidable_of_iff (a.x0 ≤ b.x0) Iff.rfl

instance : IsTotal PdfBlock xLe :=
  ⟨fun a b => le_total a.x0 b.x0⟩

instance : IsTrans PdfBlock xLe :=
  ⟨fun _ _ _ hab hbc => le_trans hab hbc⟩

/-- Python's `" | ".join`. -/
def joinSep (sep : List Char) : List (List Char) → List Char
  | [] => []
  | [x] => x
  | x :: y :: xs => x ++ sep ++ joinSep sep (y :: xs)

/-- The function `_extract_tables_from_page` on the page's text blocks: group blocks by
vertical bucket (dict insertion order = order of first occurrence of each
bucket); for each bucket with at least 3 blocks, join the stripped block
texts sorted by horizontal position with `" | "` and emit the row if the
joined text is non-blank.  (The source checks `len(row_blocks) >= 3` and
then `len(x_positions) >= 3`; the two lists always have the same length, so
a single check is faithful.) -/
def extract_tables_from_page (blocks : List PdfBlock) (pageNum : ℕ) : List TableRow :=
  (firstDedup (blocks.map bucketOf)).filterMap (fun y =>
    let g := blocks.filter (fun b => decide (bucketOf b = y))
    if 3 ≤ g.length then
      let row := joinSep " | ".toList
        ((List.insertionSort xLe g).map (fun b => pyStrip (get_block_text b)))
      if pyStrip row ≠ [] then some ⟨pageNum, row, y⟩ else none
    else none)

/-!
Title / author inference (C5): `_extract_paper_metadata` lines 184-206

The entries of `all_blocks` consumed here are dicts
`{"page", "type": "text", "text": <stripped block text>, "bbox",
"font_size"}`; only `page`, `text`, `font_size` and `bbox[1]` matter (every
entry of `all_blocks` has `type == "text"`).
-/

structure MetaBlock where
  page : ℕ
  text : List Char
  font_size : ℚ
  y : ℚ
deriving DecidableEq, Repr

/-- The sort order of `sorted(first_page_blocks,
key=lambda b: (-b["font_size"], b["bbox"][1]))`: descending font size, ties
by ascending vertical position.  Python's `sorted` is a stable sort by this
(total, transitive) relation, as is `List.insertionSort`. -/
def metaLe (a b : MetaBlock) : Prop :=
  b.font_size < a.font_size ∨ (a.font_size = b.font_size ∧ a.y ≤ b.y)

instance : DecidableRel metaLe := fun a b =>
  decidable_of_iff (b.font_size < a.font_size ∨ (a.font_size = b.font_size ∧ a.y ≤ b.y))
    Iff.rfl

instance : IsTotal MetaBlock metaLe := by
  constructor
  intro a b
  rcases lt_trichotomy a.font_size b.font_size with h | h | h
  · exact Or.inr (Or.inl h)
  · rcases le_total a.y b.y with hy | hy
    · exact Or.inl (Or.inr ⟨h, hy⟩)
    · exact Or.inr (Or.inr ⟨h.symm, hy⟩)
  · exact Or.inl (Or.inl h)

instance : IsTrans MetaBlock metaLe := by
  constructor
  intro a b c hab hbc
  rcases hab with h1 | ⟨h1, hy1⟩
  · rcases hbc with h2 | ⟨h2, hy2⟩
    · exact Or.inl (lt_trans h2 h1)
    · exact Or.inl (h2 ▸ h1)
  · rcases hbc with h2 | ⟨h2, hy2⟩
    · exact Or.inl (h1 ▸ h2)
    · exact Or.inr ⟨h1.trans h2, le_trans hy1 hy2⟩

/-- Substring test: Python's `needle in haystack`. -/
def containsSub (pat s : List Char) : Bool :=
  (List.range (s.length + 1)).any (fun i => decide ((s.drop i).take pat.length = pat))

/-- The author-line guard of the source:
`"," in potential_authors or " and " in potential_authors.lower()`. -/
def authorsGuard (t : List Char) : Bool :=
  t.contains ',' || containsSub " and ".toList (t.map Char.toLower)

/-- Lines 184-206 of `_extract_paper_metadata`: `(title, authors)` from the
block list. -/
def paperTitleAuthors (blocks : List MetaBlock) : Option (List Char) × Option (List Char) :=
  match List.insertionSort metaLe (blocks.filter (fun b => decide (b.page = 1))) with
  | [] => (none, none)
  | b :: rest =>
    (some (pyStrip b.text),
      match rest with
      | [] => none
      | b2 :: _ =>
        if authorsGuard (pyStrip b2.text) then some (pyStrip b2.text) else none)

/-- Whitespace tokenizer (for the spec-side reading of "contains the word
and"). -/
def wsTokensAux : List Char → List Char → List (List Char)
  | [], cur => if cur = [] then [] else [cur.reverse]
  | c :: cs, cur =>
    if isSpaceChar c then
      (if cur = [] then wsTokensAux cs [] else cur.reverse :: wsTokensAux cs [])
    else wsTokensAux cs (c :: cur)

def wsTokens (s : List Char) : List (List Char) :=
  wsTokensAux s []

/-- Modelled from the spec: "its text contains a comma or the word \"and\"
(case-insensitive)" — the word read as a whitespace-delimited token of the
lower-cased text. -/
def specAuthorsGuardWord (t : List Char) : Bool :=
  t.contains ',' || (wsTokens (t.map Char.toLower)).contains "and".toList

/-!
Reference-list segmenter (C4): `_extract_references` lines 218-241

The claim concerns the processing of the detected reference span
(`ref_text`, group 1 of the section regex): the `re.split` on leading
enumerators, trimming, the length floor, the 500-character cap and the
100-entry cap.
-/

/-- One enumerator: `\[\d+\]|\d+\.|\(\d+\)` (alternatives start with
distinct characters). -/
def enumCore : Step :=
  stepAlt (stepSeq (stepChar '[') (stepSeq (stepRun isDigitChar 1) (stepChar ']')))
    (stepAlt (stepSeq (stepRun isDigitChar 1) (stepChar '.'))
      (stepSeq (stepChar '(') (stepSeq (stepRun isDigitChar 1) (stepChar ')'))))

/-- The split delimiter `\n\s*(?:\[\d+\]|\d+\.|\(\d+\))\s*` (all quantifiers
maximal-munch, including the trailing whitespace run). -/
def enumDelim : Step :=
  stepSeq (stepChar '\n')
    (stepSeq (stepRun isSpaceChar 0) (stepSeq enumCore (stepRun isSpaceChar 0)))

def consHead (c : Char) : List (List Char) → List (List Char)
  | [] => [[c]]
  | p :: ps => (c :: p) :: ps

/-- Embedding of `re.split`: pieces between the leftmost non-overlapping delimiter
matches (delimiters dropped; empty pieces kept). -/
def pySplitAux (st : Step) : ℕ → List Char → List (List Char)
  | 0, s => [s]
  | _ + 1, [] => [[]]
  | fuel + 1, c :: cs =>
    match st (c :: cs) with
    | some (_, r) => [] :: pySplitAux st fuel r
    | none => consHead c (pySplitAux st fuel cs)

def pySplit (st : Step) (s : List Char) : List (List Char) :=
  pySplitAux st (s.length + 1) s

/-- The entry loop of `_extract_references` applied to the detected span:
split on enumerators, strip each entry, keep non-empty entries strictly
longer than 20 characters, cap each at 500 characters, cap the list at
100. -/
def extract_references_span (refText : List Char) : List (List Char) :=
  (((((pySplit enumDelim refText).map pyStrip).filter
      (fun e => decide (e ≠ []) && decide (20 < e.length))).map
    (fun e => e.take 500)).take 100)

/-!
Abstract inference (C6): `_extract_paper_metadata` lines 208-215

The regex
`(?:^|\n)\s*(?:ABSTRACT|Abstract)\s*[:\n]?\s*(.+?)(?=\n\s*(?:INTRODUCTION|Introduction|1\.|Keywords|KEYWORDS))`
with `re.DOTALL | re.IGNORECASE` is embedded by direct analysis of its
backtracking behaviour (all sub-patterns are maximal-munch except the
separator `\s*[:\n]?\s*`, whose alternatives the engine explores longest
first, and the lazy capture, which stops at the earliest lookahead
position).  A match attempt starts at `^` or just after a `\n`
(leftmost-first); under `IGNORECASE` the duplicated alternatives collapse
to case-insensitive literals.
-/

/-- Length of the maximal whitespace run starting at index `i`. -/
def wsRunFrom (text : List Char) (i : ℕ) : ℕ :=
  ((text.drop i).takeWhile isSpaceChar).length

/-- Case-insensitive literal `w` (given lower case) at index `i`. -/
def ciAt (text : List Char) (w : List Char) (i : ℕ) : Bool :=
  ((text.drop i).take w.length).map Char.toLower = w

/-- Slice `text[i:j]` for natural indices. -/
def seg (text : List Char) (i j : ℕ) : List Char :=
  (text.drop i).take (j - i)

/-- The lookahead `\n\s*(?:INTRODUCTION|Introduction|1\.|Keywords|KEYWORDS)`
matches at position `p`. -/
def termAt (text : List Char) (p : ℕ) : Bool :=
  (text.get? p = some '\n') &&
    (ciAt text "introduction".toList (p + 1 + wsRunFrom text (p + 1)) ||
     ciAt text "1.".toList (p + 1 + wsRunFrom text (p + 1)) ||
     ciAt text "keywords".toList (p + 1 + wsRunFrom text (p + 1)))

/-- Membership in the separator language `\s*[:\n]?\s*`: whitespace with at
most one colon (a `\n` consumed by `[:\n]` is also whitespace). -/
def isSepSpan (l : List Char) : Bool :=
  l.all (fun c => isSpaceChar c || c = ':') && (l.countP (fun c => decide (c = ':')) ≤ 1)

/-- The first (lazy-minimal) terminator position at or after `lo`. -/
def firstTermFrom (text : List Char) (lo : ℕ) : Option ℕ :=
  (List.range' lo (text.length - lo)).find? (fun p => termAt text p)

/-- The longest separator the engine munches after `ABSTRACT`:
whitespace, an optional colon, more whitespace. -/
def maxSepLen (text : List Char) (j2 : ℕ) : ℕ :=
  wsRunFrom text j2 +
    (if text.get? (j2 + wsRunFrom text j2) = some ':' then
      1 + wsRunFrom text (j2 + wsRunFrom text j2 + 1)
    else 0)

/-- Backtracking over the capture start `s = j2 + n, j2 + n - 1, ..., j2`
(largest separator first); at each reachable start the lazy capture ends at
the earliest terminator strictly after it. -/
def tryCapture (text : List Char) (j2 : ℕ) : ℕ → Option (List Char)
  | 0 =>
    match firstTermFrom text (j2 + 1) with
    | some p => some (seg text j2 p)
    | none => none
  | n + 1 =>
    if isSepSpan (seg text j2 (j2 + n + 1)) then
      match firstTermFrom text (j2 + n + 1 + 1) with
      | some p => some (seg text (j2 + n + 1) p)
      | none => tryCapture text j2 n
    else tryCapture text j2 n

/-- One match attempt with the pre-`ABSTRACT` whitespace starting at `w`. -/
def attemptAbstract (text : List Char) (w : ℕ) : Option (List Char) :=
  if ciAt text "abstract".toList (w + wsRunFrom text w) then
    tryCapture text (w + wsRunFrom text w + 8) (maxSepLen text (w + wsRunFrom text w + 8))
  else none

/-- The anchor positions of `(?:^|\n)`: the string start, and the position
after each newline, in leftmost-first order. -/
def abstractAnchors (text : List Char) : List ℕ :=
  0 :: ((List.range text.length).filter (fun i => decide (text.get? i = some '\n'))).map
    (fun i => i + 1)

/-- Lines 208-215: `re.search` the abstract regex and, on a match, store the
captured group stripped and capped at 2000 characters. -/
def find_abstract (text : List Char) : Option (List Char) :=
  ((abstractAnchors text).findSome? (fun w => attemptAbstract text w)).map
    (fun cap => (pyStrip cap).take 2000)

/-! ### Lemmas about the chunking loop -/

theorem pyNormIdx_le (L : ℕ) (i : ℤ) : pyNormIdx L i ≤ L := by
  unfold pyNormIdx
  split_ifs with h
  · omega
  · omega

theorem pyRfind2nl_le (s : List Char) (i j : ℤ) (hk : 0 ≤ pyRfind2nl s i j) :
    pyRfind2nl s i j + 2 ≤ (pyNormIdx s.length j : ℤ) := by
  unfold pyRfind2nl at hk ⊢
  rcases hg : ((List.range s.length).filter
      (fun k => decide (pyNormIdx s.length i ≤ k)
        && decide (k + 2 ≤ pyNormIdx s.length j) && nl2At s k)).getLast? with _ | m
  · rw [hg] at hk; norm_num at hk
  · obtain ⟨hne, hEq⟩ := List.mem_getLast?_eq_getLast (Option.mem_def.mpr hg)
    have hm := hEq ▸ List.getLast_mem hne
    have h2 := List.of_mem_filter hm
    simp only [Bool.and_eq_true, decide_eq_true_eq] at h2
    show (m : ℤ) + 2 ≤ _
    exact_mod_cast h2.1.2

/-- With `overlap ≥ chunk_size`, one iteration of the chunking loop never
moves `start` to a value `≥ len(text)`: the loop runs out of any fuel. -/
theorem chunkLoop_stuck (text : List Char) (cs ov : ℕ) (hov : cs ≤ ov) :
    ∀ fuel (start : ℤ), start < (text.length : ℤ) →
      chunkLoop text cs ov fuel start = none := by
  intro fuel
  induction fuel with
  | zero => intro start _; rfl
  | succ f ih =>
    intro start hs
    rw [chunkLoop, if_pos hs]
    have hnorm := pyNormIdx_le text.length (start + (cs : ℤ))
    have hnext : chunkEnd text cs ov start - (ov : ℤ) < (text.length : ℤ) := by
      unfold chunkEnd
      split_ifs with h1 h2
      · rcases le_or_lt 0 (pyRfind2nl text (start + (cs : ℤ) - (ov : ℤ)) (start + (cs : ℤ)))
          with hp | hp
        · have := pyRfind2nl_le text (start + (cs : ℤ) - (ov : ℤ)) (start + (cs : ℤ)) hp
          omega
        · omega
      · omega
      · omega
    have hrec := ih _ hnext
    rw [hrec]

/-- C1 helper: under the degenerate configuration `overlap ≥ chunk_size`, on
any text longer than `chunk_size`, `chunk_text` exhausts every fuel — the
source loop never terminates, and no error is raised first. -/
theorem chunk_text_stuck (text : List Char) (cs ov : ℕ) (hov : cs ≤ ov)
    (hlen : cs < text.length) (fuel : ℕ) :
    chunk_text text cs ov fuel = none := by
  unfold chunk_text
  rw [if_neg (by omega)]
  exact chunkLoop_stuck text cs ov hov fuel 0 (by exact_mod_cast by omega)

/-- An `rfind` over an empty range returns `-1`. -/
theorem pyRfind2nl_self (s : List Char) (i : ℤ) : pyRfind2nl s i i = -1 := by
  unfold pyRfind2nl
  rw [List.filter_eq_nil_iff.mpr ?_]
  · rfl
  · intro k _
    simp only [Bool.and_eq_true, decide_eq_true_eq, not_and]
    intro h1 h2
    omega

/-- With `overlap = 0` and `chunk_size ≥ 1`, the chunking loop from position
`st` terminates (fuel `len - st + 1` suffices) and partitions `text[st:]`
into consecutive windows of `chunk_size` characters. -/
theorem chunkLoop_partition (text : List Char) (N : ℕ) (hN : 1 ≤ N) :
    ∀ fuel (st : ℕ), st < text.length → text.length - st + 1 ≤ fuel →
      ∃ cs, chunkLoop text N 0 fuel (st : ℤ) = some cs ∧ cs.flatten = text.drop st := by
  intro fuel
  induction fuel with
  | zero => intro st h1 h2; omega
  | succ f ih =>
    intro st hst hfuel
    have hidx1 : pyNormIdx text.length (st : ℤ) = st := by
      unfold pyNormIdx
      rw [if_neg (by omega)]
      have h1 : ((st : ℤ)).toNat = st := rfl
      rw [h1]
      exact Nat.min_eq_left (by omega)
    have hidx2 : pyNormIdx text.length ((st : ℤ) + (N : ℤ)) = min (st + N) text.length := by
      unfold pyNormIdx
      rw [if_neg (by omega)]
      have h2 : ((st : ℤ) + (N : ℤ)).toNat = st + N := by omega
      rw [h2]
    have hslice : pySlice text (st : ℤ) ((st : ℤ) + (N : ℤ)) = (text.drop st).take N := by
      unfold pySlice
      rw [hidx1, hidx2]
      rcases le_or_lt (st + N) text.length with h | h
      · rw [Nat.min_eq_left h]
        congr 1
        omega
      · rw [Nat.min_eq_right (by omega)]
        rw [List.take_of_length_le (by simp), List.take_of_length_le (by simp; omega)]
    have hend : chunkEnd text N 0 (st : ℤ) = (st : ℤ) + (N : ℤ) := by
      unfold chunkEnd
      rcases lt_or_le ((st : ℤ) + (N : ℤ)) (text.length : ℤ) with he | he
      · rw [if_pos he]
        have h0 : ((st : ℤ) + (N : ℤ) - ((0 : ℕ) : ℤ)) = (st : ℤ) + (N : ℤ) := by push_cast; ring
        rw [h0, pyRfind2nl_self, if_neg (by omega)]
      · rw [if_neg (not_lt.mpr he)]
    rw [chunkLoop, if_pos (by exact_mod_cast hst), hend]
    have hnext : ((st : ℤ) + (N : ℤ) - ((0 : ℕ) : ℤ)) = ((st + N : ℕ) : ℤ) := by push_cast; ring
    rw [hnext]
    rcases lt_or_le (st + N) text.length with hcase | hcase
    · -- another full window fits
      obtain ⟨cs, hcs, hjoin⟩ := ih (st + N) hcase (by omega)
      rw [hcs]
      refine ⟨_, rfl, ?_⟩
      rw [List.flatten_cons, hslice, hjoin]
      rw [← List.drop_drop, List.take_append_drop]
    · -- last window: `end ≥ len`, the final chunk is the rest of the text
      obtain ⟨f', rfl⟩ : ∃ f', f = f' + 1 := ⟨f - 1, by omega⟩
      have hfin : chunkLoop text N 0 (f' + 1) ((st + N : ℕ) : ℤ) = some [] := by
        rw [chunkLoop, if_neg (by push_cast; omega)]
      rw [hfin]
      refine ⟨_, rfl, ?_⟩
      rw [List.flatten_cons, hslice, List.flatten_nil, List.append_nil]
      exact List.take_of_length_le (by simp; omega)

/-- C1: under the degenerate configuration `overlap ≥ chunk_size`, on any
text longer than `chunk_size`, the source raises no configuration error —
the chunking loop simply never terminates (`start` never advances past the
end of the text, so the loop exhausts every fuel).  This contradicts the
specified fail-fast behaviour. -/
theorem claim_c1_degenerate_chunking_loops_forever
    (text : List Char) (cs ov : ℕ) (hov : cs ≤ ov) (hlen : cs < text.length) :
    ∀ fuel, chunk_text text cs ov fuel = none :=
  fun fuel => chunk_text_stuck text cs ov hov hlen fuel

/-- C1 witness: the concrete degenerate call `chunk_text("aaaaaa", 3, 3)`
makes no progress for any amount of fuel (shown here for fuel 40). -/
theorem claim_c1_witness : chunk_text "aaaaaa".toList 3 3 40 = none :=
  claim_c1_degenerate_chunking_loops_forever "aaaaaa".toList 3 3 (by decide) (by decide) 40

/-- C8 (amended): with `overlap = 0` and a positive chunk size `N < |text|`,
`chunk_text` terminates and the concatenation of its chunks is exactly the
input; and whenever `|text| ≤ N` the result is the single-element list
`[text]`, for every overlap. -/
theorem claim_c8_chunk_concat (text : List Char) (N ov : ℕ) :
    (1 ≤ N → N < text.length →
      ∃ cs, chunk_text text N 0 (text.length + 1) = some cs ∧ cs.flatten = text) ∧
    (text.length ≤ N → ∀ fuel, chunk_text text N ov fuel = some [text]) := by
  constructor
  · intro hN hlen
    obtain ⟨cs, hcs, hjoin⟩ := chunkLoop_partition text N hN (text.length + 1) 0
      (by omega) (by omega)
    refine ⟨cs, ?_, by simpa using hjoin⟩
    unfold chunk_text
    rw [if_neg (by omega)]
    exact_mod_cast hcs
  · intro hle fuel
    unfold chunk_text
    rw [if_pos hle]

/-- C8 counterexample: the claim quantifies over every `N`; at `N = 0` (with
`overlap = 0`) the source loop makes no progress on the one-character text
`"a"`, so no run of `chunk_text` ever returns chunks whose concatenation is
the text. -/
theorem claim_c8_counterexample :
    ¬ ∃ cs, (∃ fuel, chunk_text ['a'] 0 0 fuel = some cs) ∧ cs.flatten = ['a'] := by
  rintro ⟨cs, ⟨fuel, hf⟩, -⟩
  rw [chunk_text_stuck ['a'] 0 0 le_rfl (by decide) fuel] at hf
  exact Option.noConfusion hf

/-- C8 witness: the amended claim at `text = "abcde"`, `N = 2`. -/
theorem claim_c8_witness :
    ∃ cs, chunk_text "abcde".toList 2 0 6 = some cs ∧ cs.flatten = "abcde".toList :=
  (claim_c8_chunk_concat "abcde".toList 2 0).1 (by decide) (by decide)

theorem takeWhile_sub (p q : Char → Bool) (himp : ∀ c, p c = true → q c = true) :
    ∀ s : List Char, (s.takeWhile q).takeWhile p = s.takeWhile p := by
  intro s
  induction s with
  | nil => rfl
  | cons c cs ih =>
    by_cases hq : q c
    · rw [List.takeWhile_cons_of_pos hq]
      by_cases hp : p c
      · rw [List.takeWhile_cons_of_pos hp, List.takeWhile_cons_of_pos hp, ih]
      · rw [List.takeWhile_cons_of_neg hp, List.takeWhile_cons_of_neg hp]
    · have hp : ¬ p c = true := fun h => hq (himp c h)
      rw [List.takeWhile_cons_of_neg hq, List.takeWhile_cons_of_neg hp]
      rfl

theorem takeWhile_append_all (q : Char → Bool) :
    ∀ (m t : List Char), (∀ c ∈ m, q c = true) →
      (m ++ t).takeWhile q = m ++ t.takeWhile q := by
  intro m
  induction m with
  | nil => intro t _; rfl
  | cons c cs ih =>
    intro t hall
    have hc : q c = true := hall c (by simp)
    rw [List.cons_append, List.takeWhile_cons_of_pos hc, ih t (fun x hx => hall x (by simp [hx]))]
    rfl

theorem takeWhile_eq_take (p : Char → Bool) (s : List Char) :
    s.takeWhile p = s.take (s.takeWhile p).length := by
  have h : (s.takeWhile p ++ s.dropWhile p).take (s.takeWhile p).length = s.takeWhile p :=
    List.take_left _ _
  rw [List.takeWhile_append_dropWhile] at h
  exact h.symm

theorem takeWhile_len_le (p : Char → Bool) (s : List Char) :
    (s.takeWhile p).length ≤ s.length := by
  have h := congrArg List.length (List.takeWhile_append_dropWhile p s)
  simp only [List.length_append] at h
  omega

theorem take_takeWhile_eq_take (p : Char → Bool) (s : List Char) (hi : ℕ) :
    s.take ((s.takeWhile p).take hi).length = (s.takeWhile p).take hi := by
  rw [List.length_take]
  conv_rhs => rw [takeWhile_eq_take p s]
  rw [List.take_take]

/-- If `m` is a comma-free prefix of `s`, truncation at the first comma
acts only past `m`. -/
theorem takeWhile_prefix_split (q : Char → Bool) (s m : List Char)
    (hm : s.take m.length = m) (hq : ∀ c ∈ m, q c = true) :
    (s.takeWhile q).take m.length = m ∧
      (s.takeWhile q).drop m.length = (s.drop m.length).takeWhile q := by
  have hsp : s = m ++ s.drop m.length := by
    conv_lhs => rw [← List.take_append_drop m.length s, hm]
  have htw : s.takeWhile q = m ++ (s.drop m.length).takeWhile q := by
    conv_lhs => rw [hsp, takeWhile_append_all q m _ hq]
  constructor
  · rw [htw, List.take_append_of_le_length le_rfl, List.take_of_length_le le_rfl]
  · rw [htw, List.drop_left]

theorem stepChar_sound (c : Char) : StepSound (stepChar c) := by
  intro s m r h
  match s with
  | [] => exact absurd h (by simp [stepChar])
  | x :: xs =>
    replace h : (if x = c then some ([x], xs) else none) = some (m, r) := h
    by_cases hx : x = c
    · rw [if_pos hx] at h
      cases h
      rfl
    · rw [if_neg hx] at h
      exact absurd h (by simp)

theorem stepChar_prog (c : Char) : StepProg (stepChar c) := by
  intro s m r h
  match s with
  | [] => exact absurd h (by simp [stepChar])
  | x :: xs =>
    replace h : (if x = c then some ([x], xs) else none) = some (m, r) := h
    by_cases hx : x = c
    · rw [if_pos hx] at h
      cases h
      simp
    · rw [if_neg hx] at h
      exact absurd h (by simp)

theorem stepChar_cl (c : Char) (hc : c ≠ ',') : StepCL (stepChar c) := by
  intro s
  match s with
  | [] => rfl
  | x :: xs =>
    by_cases hx : x = ','
    · subst hx
      rw [List.takeWhile_cons_of_neg (by simp [notComma])]
      have h2 : stepChar c (',' :: xs) = none := by
        show (if ',' = c then some ([','], xs) else none) = none
        rw [if_neg (fun h => hc h.symm)]
      rw [h2]
      rfl
    · have h1 : notComma x = true := by simp [notComma, hx]
      rw [List.takeWhile_cons_of_pos h1]
      show (if x = c then some ([x], xs.takeWhile notComma) else none) =
        Option.map (fun p => (p.1, p.2.takeWhile notComma))
          (if x = c then some ([x], xs) else none)
      by_cases hxc : x = c
      · rw [if_pos hxc, if_pos hxc]
        rfl
      · rw [if_neg hxc, if_neg hxc]
        rfl

theorem take_len_take (s : List Char) (n : ℕ) : s.take ((s.take n).length) = s.take n := by
  rw [List.length_take]
  rcases le_total n s.length with h | h
  · rw [Nat.min_eq_left h]
  · rw [Nat.min_eq_right h, List.take_length, List.take_of_length_le h]

theorem stepCIWord_sound (w : List Char) : StepSound (stepCIWord w) := by
  intro s m r h
  replace h : (if (s.take w.length).map Char.toLower = w
      then some (s.take w.length, s.drop w.length) else none) = some (m, r) := h
  by_cases hc : (s.take w.length).map Char.toLower = w
  · rw [if_pos hc] at h
    cases h
    exact (List.take_append_drop w.length s).symm
  · rw [if_neg hc] at h
    exact absurd h (by simp)

theorem stepCIWord_prog (w : List Char) (hw : w ≠ []) : StepProg (stepCIWord w) := by
  intro s m r h
  replace h : (if (s.take w.length).map Char.toLower = w
      then some (s.take w.length, s.drop w.length) else none) = some (m, r) := h
  by_cases hc : (s.take w.length).map Char.toLower = w
  · rw [if_pos hc] at h
    cases h
    intro hnil
    rw [hnil] at hc
    exact hw (by simpa using hc.symm)
  · rw [if_neg hc] at h
    exact absurd h (by simp)

theorem stepCIWord_cl (w : List Char) (hw : (',' : Char) ∉ w) : StepCL (stepCIWord w) := by
  intro s
  by_cases hc : (s.take w.length).map Char.toLower = w
  · have hlen : (s.take w.length).length = w.length := by
      have h0 : (List.map Char.toLower (s.take w.length)).length = w.length := by rw [hc]
      simpa using h0
    have hq : ∀ c ∈ s.take w.length, notComma c = true := by
      intro c hcm
      by_contra hnc
      have hcomma : c = ',' := by
        simpa [notComma] using hnc
      subst hcomma
      exact hw (hc ▸ List.mem_map_of_mem Char.toLower hcm)
    have hm : s.take (s.take w.length).length = s.take w.length := take_len_take s w.length
    obtain ⟨h1, h2⟩ := takeWhile_prefix_split notComma s (s.take w.length) hm hq
    rw [hlen] at h1 h2
    have hres : stepCIWord w (s.takeWhile notComma) =
        some (s.take w.length, (s.drop w.length).takeWhile notComma) := by
      show (if ((s.takeWhile notComma).take w.length).map Char.toLower = w
          then some ((s.takeWhile notComma).take w.length, (s.takeWhile notComma).drop w.length)
          else none) = _
      rw [h1, h2, if_pos hc]
    rw [hres]
    have hsrc : stepCIWord w s = some (s.take w.length, s.drop w.length) := by
      show (if (s.take w.length).map Char.toLower = w
          then some (s.take w.length, s.drop w.length) else none) = _
      rw [if_pos hc]
    rw [hsrc]
    rfl
  · have hnc2 : ¬ ((s.takeWhile notComma).take w.length).map Char.toLower = w := by
      intro hc2
      have hlen2 : ((s.takeWhile notComma).take w.length).length = w.length := by
        have := congrArg List.length hc2
        simpa using this
      have hle : w.length ≤ (s.takeWhile notComma).length := by
        have := List.length_take w.length (s.takeWhile notComma)
        omega
      have heq : (s.takeWhile notComma).take w.length = s.take w.length := by
        have hsplit : s = s.takeWhile notComma ++ s.dropWhile notComma :=
          (List.takeWhile_append_dropWhile notComma s).symm
        conv_rhs => rw [hsplit]
        rw [List.take_append_of_le_length hle]
      rw [heq] at hc2
      exact hc hc2
    have hleft : stepCIWord w (s.takeWhile notComma) = none := by
      show (if ((s.takeWhile notComma).take w.length).map Char.toLower = w
          then some ((s.takeWhile notComma).take w.length, (s.takeWhile notComma).drop w.length)
          else none) = none
      rw [if_neg hnc2]
    have hright : stepCIWord w s = none := by
      show (if (s.take w.length).map Char.toLower = w
          then some (s.take w.length, s.drop w.length) else none) = none
      rw [if_neg hc]
    rw [hleft, hright]
    rfl

theorem stepRun_sound (p : Char → Bool) (lo : ℕ) : StepSound (stepRun p lo) := by
  intro s m r h
  replace h : (if lo ≤ (s.takeWhile p).length
      then some (s.takeWhile p, s.drop (s.takeWhile p).length) else none) = some (m, r) := h
  by_cases hc : lo ≤ (s.takeWhile p).length
  · rw [if_pos hc] at h
    cases h
    conv_lhs => rw [← List.take_append_drop (s.takeWhile p).length s,
      ← takeWhile_eq_take p s]
  · rw [if_neg hc] at h
    exact absurd h (by simp)

theorem stepRun_prog (p : Char → Bool) (lo : ℕ) (hlo : 1 ≤ lo) : StepProg (stepRun p lo) := by
  intro s m r h
  replace h : (if lo ≤ (s.takeWhile p).length
      then some (s.takeWhile p, s.drop (s.takeWhile p).length) else none) = some (m, r) := h
  by_cases hc : lo ≤ (s.takeWhile p).length
  · rw [if_pos hc] at h
    cases h
    intro hnil
    rw [hnil] at hc
    simp at hc
    omega
  · rw [if_neg hc] at h
    exact absurd h (by simp)

theorem stepRun_cl (p : Char → Bool) (lo : ℕ) (himp : ∀ c, p c = true → notComma c = true) :
    StepCL (stepRun p lo) := by
  intro s
  have htw : (s.takeWhile notComma).takeWhile p = s.takeWhile p := takeWhile_sub p notComma himp s
  have hm : s.take (s.takeWhile p).length = s.takeWhile p :=
    (takeWhile_eq_take p s).symm
  have hq : ∀ c ∈ s.takeWhile p, notComma c = true := fun c hcm =>
    himp c (List.mem_takeWhile_imp hcm)
  obtain ⟨h1, h2⟩ := takeWhile_prefix_split notComma s (s.takeWhile p) hm hq
  show (if lo ≤ ((s.takeWhile notComma).takeWhile p).length
      then some ((s.takeWhile notComma).takeWhile p,
        (s.takeWhile notComma).drop ((s.takeWhile notComma).takeWhile p).length)
      else none) =
    Option.map (fun q => (q.1, q.2.takeWhile notComma))
      (if lo ≤ (s.takeWhile p).length
        then some (s.takeWhile p, s.drop (s.takeWhile p).length) else none)
  rw [htw]
  by_cases hc : lo ≤ (s.takeWhile p).length
  · rw [if_pos hc, if_pos hc, h2]
    rfl
  · rw [if_neg hc, if_neg hc]
    rfl

theorem stepRunBounded_sound (p : Char → Bool) (lo hi : ℕ) :
    StepSound (stepRunBounded p lo hi) := by
  intro s m r h
  replace h : (if lo ≤ ((s.takeWhile p).take hi).length
      then some ((s.takeWhile p).take hi, s.drop ((s.takeWhile p).take hi).length)
      else none) = some (m, r) := h
  by_cases hc : lo ≤ ((s.takeWhile p).take hi).length
  · rw [if_pos hc] at h
    cases h
    conv_lhs => rw [← List.take_append_drop ((s.takeWhile p).take hi).length s,
      take_takeWhile_eq_take p s hi]
  · rw [if_neg hc] at h
    exact absurd h (by simp)

theorem stepRunBounded_prog (p : Char → Bool) (lo hi : ℕ) (hlo : 1 ≤ lo) :
    StepProg (stepRunBounded p lo hi) := by
  intro s m r h
  replace h : (if lo ≤ ((s.takeWhile p).take hi).length
      then some ((s.takeWhile p).take hi, s.drop ((s.takeWhile p).take hi).length)
      else none) = some (m, r) := h
  by_cases hc : lo ≤ ((s.takeWhile p).take hi).length
  · rw [if_pos hc] at h
    cases h
    intro hnil
    rw [hnil] at hc
    simp at hc
    omega
  · rw [if_neg hc] at h
    exact absurd h (by simp)

theorem stepRunBounded_cl (p : Char → Bool) (lo hi : ℕ)
    (himp : ∀ c, p c = true → notComma c = true) : StepCL (stepRunBounded p lo hi) := by
  intro s
  have htw : (s.takeWhile notComma).takeWhile p = s.takeWhile p := takeWhile_sub p notComma himp s
  have hm : s.take ((s.takeWhile p).take hi).length = (s.takeWhile p).take hi :=
    take_takeWhile_eq_take p s hi
  have hq : ∀ c ∈ (s.takeWhile p).take hi, notComma c = true := fun c hcm =>
    himp c (List.mem_takeWhile_imp (List.mem_of_mem_take hcm))
  obtain ⟨h1, h2⟩ := takeWhile_prefix_split notComma s ((s.takeWhile p).take hi) hm hq
  show (if lo ≤ (((s.takeWhile notComma).takeWhile p).take hi).length
      then some (((s.takeWhile notComma).takeWhile p).take hi,
        (s.takeWhile notComma).drop (((s.takeWhile notComma).takeWhile p).take hi).length)
      else none) =
    Option.map (fun q => (q.1, q.2.takeWhile notComma))
      (if lo ≤ ((s.takeWhile p).take hi).length
        then some ((s.takeWhile p).take hi, s.drop ((s.takeWhile p).take hi).length)
        else none)
  rw [htw]
  by_cases hc : lo ≤ ((s.takeWhile p).take hi).length
  · rw [if_pos hc, if_pos hc, h2]
    rfl
  · rw [if_neg hc, if_neg hc]
    rfl

theorem stepSeq_sound (a b : Step) (ha : StepSound a) (hb : StepSound b) :
    StepSound (stepSeq a b) := by
  intro s m r h
  unfold stepSeq at h
  rcases h1 : a s with _ | ⟨m1, r1⟩
  · simp only [h1] at h
    exact Option.noConfusion h
  · simp only [h1] at h
    rcases h2 : b r1 with _ | ⟨m2, r2⟩
    · simp only [h2] at h
      exact Option.noConfusion h
    · simp only [h2, Option.some.injEq, Prod.mk.injEq] at h
      obtain ⟨hm, hr⟩ := h
      subst hm hr
      rw [ha s _ _ h1, hb r1 _ _ h2, List.append_assoc]

theorem stepSeq_prog (a b : Step) (ha : StepProg a) : StepProg (stepSeq a b) := by
  intro s m r h
  unfold stepSeq at h
  rcases h1 : a s with _ | ⟨m1, r1⟩
  · simp only [h1] at h
    exact Option.noConfusion h
  · simp only [h1] at h
    rcases h2 : b r1 with _ | ⟨m2, r2⟩
    · simp only [h2] at h
      exact Option.noConfusion h
    · simp only [h2, Option.some.injEq, Prod.mk.injEq] at h
      obtain ⟨hm, hr⟩ := h
      subst hm hr
      have := ha s _ _ h1
      simp [this]

theorem stepSeq_cl (a b : Step) (ha : StepCL a) (hb : StepCL b) : StepCL (stepSeq a b) := by
  intro s
  unfold stepSeq
  have h1 := ha s
  rcases hA : a s with _ | ⟨m1, r1⟩
  · rw [hA] at h1
    simp only [hA, h1, Option.map_none']
  · rw [hA] at h1
    simp only [Option.map_some'] at h1
    have h2 := hb r1
    rcases hB : b r1 with _ | ⟨m2, r2⟩
    · rw [hB] at h2
      simp only [hA, h1, h2, hB, Option.map_none', Option.map_some']
    · rw [hB] at h2
      simp only [Option.map_some'] at h2
      simp only [hA, h1, h2, hB, Option.map_some']

theorem stepOpt_sound (a : Step) (ha : StepSound a) : StepSound (stepOpt a) := by
  intro s m r h
  unfold stepOpt at h
  rcases hA : a s with _ | ⟨m1, r1⟩
  · rw [hA] at h
    cases h
    rfl
  · rw [hA] at h
    cases h
    exact ha s _ _ hA

theorem stepOpt_cl (a : Step) (ha : StepCL a) : StepCL (stepOpt a) := by
  intro s
  unfold stepOpt
  have h1 := ha s
  rcases hA : a s with _ | ⟨m1, r1⟩
  · rw [hA] at h1
    simp only [hA, h1, Option.map_none', Option.map_some']
  · rw [hA] at h1
    simp only [Option.map_some'] at h1
    simp only [hA, h1, Option.map_some']

theorem imp_notComma (p : Char → Bool) (h : p ',' = false) :
    ∀ c, p c = true → notComma c = true := by
  intro c hc
  by_cases hcc : c = ','
  · subst hcc
    rw [h] at hc
    exact absurd hc (by simp)
  · simp [notComma, hcc]

theorem matchDoi_sound : StepSound matchDoi :=
  stepSeq_sound _ _ (stepChar_sound _) (stepSeq_sound _ _ (stepChar_sound _)
    (stepSeq_sound _ _ (stepChar_sound _) (stepSeq_sound _ _ (stepRun_sound _ _)
      (stepSeq_sound _ _ (stepChar_sound _) (stepRun_sound _ _)))))

theorem matchDoi_prog : StepProg matchDoi :=
  stepSeq_prog _ _ (stepChar_prog _)

theorem matchDoi_cl : StepCL matchDoi :=
  stepSeq_cl _ _ (stepChar_cl _ (by decide)) (stepSeq_cl _ _ (stepChar_cl _ (by decide))
    (stepSeq_cl _ _ (stepChar_cl _ (by decide))
      (stepSeq_cl _ _ (stepRun_cl _ _ (imp_notComma _ (by decide)))
        (stepSeq_cl _ _ (stepChar_cl _ (by decide))
          (stepRun_cl _ _ (imp_notComma _ (by decide)))))))

theorem matchArxiv_sound : StepSound matchArxiv :=
  stepSeq_sound _ _ (stepCIWord_sound _) (stepSeq_sound _ _ (stepRunBounded_sound _ _ _)
    (stepSeq_sound _ _ (stepChar_sound _) (stepSeq_sound _ _ (stepRunBounded_sound _ _ _)
      (stepOpt_sound _ (stepSeq_sound _ _ (stepCIWord_sound _) (stepRun_sound _ _))))))

theorem matchArxiv_prog : StepProg matchArxiv :=
  stepSeq_prog _ _ (stepCIWord_prog _ (by decide))

theorem matchArxiv_cl : StepCL matchArxiv :=
  stepSeq_cl _ _ (stepCIWord_cl _ (by decide))
    (stepSeq_cl _ _ (stepRunBounded_cl _ _ _ (imp_notComma _ (by decide)))
      (stepSeq_cl _ _ (stepChar_cl _ (by decide))
        (stepSeq_cl _ _ (stepRunBounded_cl _ _ _ (imp_notComma _ (by decide)))
          (stepOpt_cl _ (stepSeq_cl _ _ (stepCIWord_cl _ (by decide))
            (stepRun_cl _ _ (imp_notComma _ (by decide))))))))

theorem matchPmid_sound : StepSound matchPmid :=
  stepSeq_sound _ _ (stepCIWord_sound _)
    (stepSeq_sound _ _ (stepRun_sound _ _) (stepRun_sound _ _))

theorem matchPmid_prog : StepProg matchPmid :=
  stepSeq_prog _ _ (stepCIWord_prog _ (by decide))

theorem matchPmid_cl : StepCL matchPmid :=
  stepSeq_cl _ _ (stepCIWord_cl _ (by decide))
    (stepSeq_cl _ _ (stepRun_cl _ _ (imp_notComma _ (by decide)))
      (stepRun_cl _ _ (imp_notComma _ (by decide))))

/-- A sound, progressing scanner fails on the empty input. -/
theorem step_nil_none (st : Step) (hs : StepSound st) (hp : StepProg st) : st [] = none := by
  rcases h : st [] with _ | ⟨m, r⟩
  · rfl
  · have h1 := hs [] m r h
    have h2 := hp [] m r h
    exact absurd (List.append_eq_nil.mp h1.symm).1 h2

/-- No scanner with the comma-locality property matches at a comma. -/
theorem step_comma_none (st : Step) (hs : StepSound st) (hp : StepProg st) (hcl : StepCL st)
    (v : List Char) : st (',' :: v) = none := by
  have h := hcl (',' :: v)
  rw [List.takeWhile_cons_of_neg (by simp [notComma])] at h
  rw [step_nil_none st hs hp] at h
  rcases hc : st (',' :: v) with _ | x
  · rfl
  · rw [hc] at h
    exact absurd h.symm (by simp)

theorem takeWhile_append_comma (u v : List Char) :
    (u ++ ',' :: v).takeWhile notComma = u.takeWhile notComma := by
  induction u with
  | nil => simp [List.takeWhile_cons_of_neg, notComma]
  | cons c cs ih =>
    by_cases hc : notComma c
    · rw [List.cons_append, List.takeWhile_cons_of_pos hc, List.takeWhile_cons_of_pos hc, ih]
    · rw [List.cons_append, List.takeWhile_cons_of_neg hc, List.takeWhile_cons_of_neg hc]

theorem findAllAux_stable (st : Step) (hs : StepSound st) (hp : StepProg st) :
    ∀ f1 f2 (s : List Char), s.length < f1 → s.length < f2 →
      findAllAux st f1 s = findAllAux st f2 s := by
  intro f1
  induction f1 with
  | zero => intro f2 s h1 h2; omega
  | succ g ih =>
    intro f2 s h1 h2
    obtain ⟨k, rfl⟩ : ∃ k, f2 = k + 1 := ⟨f2 - 1, by omega⟩
    match s with
    | [] => rfl
    | c :: cs =>
      rcases hA : st (c :: cs) with _ | ⟨m, r⟩
      · simp only [findAllAux, hA]
        exact ih k cs (by simp only [List.length_cons] at h1; omega)
          (by simp only [List.length_cons] at h2; omega)
      · simp only [findAllAux, hA]
        have hlen := congrArg List.length (hs _ _ _ hA)
        simp only [List.length_cons, List.length_append] at hlen
        have hm1 : 1 ≤ m.length := List.length_pos.mpr (hp _ _ _ hA)
        rw [ih k r (by simp only [List.length_cons] at h1; omega)
          (by simp only [List.length_cons] at h2; omega)]

theorem findAll_cons_none (st : Step) (c : Char) (cs : List Char) (hA : st (c :: cs) = none) :
    findAll st (c :: cs) = findAll st cs := by
  show findAllAux st ((c :: cs).length + 1) (c :: cs) = _
  simp only [List.length_cons, findAllAux, hA]
  rfl

theorem findAll_cons_some (st : Step) (hs : StepSound st) (hp : StepProg st)
    (c : Char) (cs m r : List Char) (hA : st (c :: cs) = some (m, r)) :
    findAll st (c :: cs) = m :: findAll st r := by
  show findAllAux st ((c :: cs).length + 1) (c :: cs) = _
  simp only [List.length_cons, findAllAux, hA]
  have hlen := congrArg List.length (hs _ _ _ hA)
  simp only [List.length_cons, List.length_append] at hlen
  have hm1 : 1 ≤ m.length := List.length_pos.mpr (hp _ _ _ hA)
  rw [findAllAux_stable st hs hp (cs.length + 1) (r.length + 1) r (by omega) (by omega)]
  rfl

/-- Key splitting lemma: since no identifier scanner can match at, contain,
or look past a comma, `finditer` over `xs ++ "," ++ ys` is `finditer` over
`xs ++ ","` followed by `finditer` over `ys`. -/
theorem findAll_split_aux (st : Step) (hs : StepSound st) (hp : StepProg st) (hcl : StepCL st) :
    ∀ n (xs ys : List Char), xs.length ≤ n →
      findAll st (xs ++ ',' :: ys) = findAll st (xs ++ [',']) ++ findAll st ys := by
  have hcommaY : ∀ ys, findAll st (',' :: ys) = findAll st ys := by
    intro ys
    exact findAll_cons_none st ',' ys (step_comma_none st hs hp hcl ys)
  have hcomma1 : findAll st [','] = [] := by
    have := findAll_cons_none st ',' [] (step_comma_none st hs hp hcl [])
    rw [this]
    rfl
  intro n
  induction n with
  | zero =>
    intro xs ys hlen
    have hxs : xs = [] := List.length_eq_zero.mp (by omega)
    subst hxs
    simp only [List.nil_append]
    rw [hcommaY ys, hcomma1, List.nil_append]
  | succ n ih =>
    intro xs ys hlen
    match xs with
    | [] =>
      simp only [List.nil_append]
      rw [hcommaY ys, hcomma1, List.nil_append]
    | c :: xs' =>
      have h1 := hcl ((c :: xs') ++ ',' :: ys)
      have h2 := hcl ((c :: xs') ++ [','])
      rw [takeWhile_append_comma] at h1
      have hZcomma : ((c :: xs') ++ [',']).takeWhile notComma = (c :: xs').takeWhile notComma :=
        takeWhile_append_comma (c :: xs') []
      rw [hZcomma] at h2
      rcases hY : st ((c :: xs') ++ ',' :: ys) with _ | ⟨m, r⟩
      · rw [hY] at h1
        simp only [Option.map_none'] at h1
        rw [h1] at h2
        have hZ : st ((c :: xs') ++ [',']) = none := Option.map_eq_none'.mp h2.symm
        simp only [List.cons_append] at hY hZ ⊢
        rw [findAll_cons_none st c _ hY, findAll_cons_none st c _ hZ]
        exact ih xs' ys (by simp only [List.length_cons] at hlen; omega)
      · rw [hY] at h1
        simp only [Option.map_some'] at h1
        have hsound := hs _ _ _ hY
        have hm1 : 1 ≤ m.length := List.length_pos.mpr (hp _ _ _ hY)
        -- the match cannot reach past the end of `xs`
        have hmxs : m.length ≤ (c :: xs').length := by
          have hsound2 := hs _ _ _ h1
          have hlen2 := congrArg List.length hsound2
          simp only [List.length_append] at hlen2
          have h3 : ((c :: xs').takeWhile notComma).length ≤ (c :: xs').length :=
            takeWhile_len_le notComma (c :: xs')
          omega
        -- the same match occurs in `xs ++ [',']`
        rcases hZ : st ((c :: xs') ++ [',']) with _ | ⟨m2, r2⟩
        · rw [hZ] at h2
          simp only [Option.map_none'] at h2
          rw [h1] at h2
          exact absurd h2 (by simp)
        · rw [hZ] at h2
          simp only [Option.map_some'] at h2
          rw [h1] at h2
          simp only [Option.some.injEq, Prod.mk.injEq] at h2
          obtain ⟨hm2, -⟩ := h2
          subst hm2
          have hsoundZ := hs _ _ _ hZ
          -- compute the two rests explicitly
          have hrY : r = ((c :: xs').drop m.length) ++ ',' :: ys := by
            have h4 : (m ++ r).drop m.length = r := List.drop_left m r
            rw [← h4, ← hsound, List.drop_append_of_le_length hmxs]
          have hrZ : r2 = ((c :: xs').drop m.length) ++ [','] := by
            have h4 : (m ++ r2).drop m.length = r2 := List.drop_left m r2
            rw [← h4, ← hsoundZ, List.drop_append_of_le_length hmxs]
          simp only [List.cons_append] at hY hZ ⊢
          rw [findAll_cons_some st hs hp c _ m r hY, findAll_cons_some st hs hp c _ m r2 hZ]
          rw [hrY, hrZ]
          have hdroplen : ((c :: xs').drop m.length).length ≤ n := by
            simp only [List.length_drop, List.length_cons]
            simp only [List.length_cons] at hlen
            omega
          rw [ih _ ys hdroplen]
          rfl

theorem findAll_split (st : Step) (hs : StepSound st) (hp : StepProg st) (hcl : StepCL st)
    (xs ys : List Char) :
    findAll st (xs ++ ',' :: ys) = findAll st (xs ++ [',']) ++ findAll st ys :=
  findAll_split_aux st hs hp hcl xs.length xs ys le_rfl

/-- Doubling a comma-terminated text doubles the list of `finditer`
matches. -/
theorem findAll_double (st : Step) (hs : StepSound st) (hp : StepProg st) (hcl : StepCL st)
    (t : List Char) :
    findAll st ((t ++ [',']) ++ (t ++ [','])) =
      findAll st (t ++ [',']) ++ findAll st (t ++ [',']) := by
  have h0 : (t ++ [',']) ++ (t ++ [',']) = t ++ ',' :: (t ++ [',']) := by
    rw [List.append_assoc]
    rfl
  rw [h0, findAll_split st hs hp hcl t (t ++ [','])]

theorem dedupFrom_append (s : List (CitKind × List Char)) (u v : List Citation) :
    dedupFrom s (u ++ v) = dedupFrom s u ++ dedupFrom (seenAfter s u) v := by
  induction u generalizing s with
  | nil => rfl
  | cons c cs ih =>
    simp only [List.cons_append, dedupFrom, seenAfter, List.append_eq]
    by_cases h : citeKey c ∈ s
    · rw [if_pos h, if_pos h, ih, if_pos h]
    · rw [if_neg h, if_neg h, ih, List.cons_append, if_neg h]

theorem subset_seenAfter (s : List (CitKind × List Char)) (u : List Citation) :
    ∀ k ∈ s, k ∈ seenAfter s u := by
  induction u generalizing s with
  | nil => intro k hk; exact hk
  | cons c cs ih =>
    intro k hk
    simp only [seenAfter]
    by_cases h : citeKey c ∈ s
    · rw [if_pos h]
      exact ih s k hk
    · rw [if_neg h]
      exact ih _ k (by simp [hk])

theorem key_mem_seenAfter (s : List (CitKind × List Char)) (u : List Citation) :
    ∀ c ∈ u, citeKey c ∈ seenAfter s u := by
  induction u generalizing s with
  | nil => intro c hc; exact absurd hc (by simp)
  | cons d ds ih =>
    intro c hc
    simp only [seenAfter]
    rcases List.mem_cons.mp hc with rfl | hc'
    · by_cases h : citeKey c ∈ s
      · rw [if_pos h]
        exact subset_seenAfter s ds _ h
      · rw [if_neg h]
        exact subset_seenAfter _ ds _ (by simp)
    · by_cases h : citeKey d ∈ s
      · rw [if_pos h]
        exact ih s c hc'
      · rw [if_neg h]
        exact ih _ c hc'

theorem mem_of_mem_seenAfter (s : List (CitKind × List Char)) (u : List Citation) :
    ∀ k ∈ seenAfter s u, k ∈ s ∨ ∃ c ∈ u, k = citeKey c := by
  induction u generalizing s with
  | nil => intro k hk; exact Or.inl hk
  | cons c cs ih =>
    intro k hk
    simp only [seenAfter] at hk
    by_cases h : citeKey c ∈ s
    · rw [if_pos h] at hk
      rcases ih s k hk with h1 | ⟨d, hd, hkd⟩
      · exact Or.inl h1
      · exact Or.inr ⟨d, List.mem_cons_of_mem c hd, hkd⟩
    · rw [if_neg h] at hk
      rcases ih _ k hk with h1 | ⟨d, hd, hkd⟩
      · rcases List.mem_cons.mp h1 with rfl | h2
        · exact Or.inr ⟨c, List.mem_cons_self c cs, rfl⟩
        · exact Or.inl h2
      · exact Or.inr ⟨d, List.mem_cons_of_mem c hd, hkd⟩

theorem dedupFrom_all_seen (s : List (CitKind × List Char)) (v : List Citation)
    (h : ∀ c ∈ v, citeKey c ∈ s) : dedupFrom s v = [] ∧ seenAfter s v = s := by
  induction v with
  | nil => exact ⟨rfl, rfl⟩
  | cons c cs ih =>
    have hc : citeKey c ∈ s := h c (by simp)
    simp only [dedupFrom, seenAfter, if_pos hc]
    exact ih (fun d hd => h d (by simp [hd]))

theorem dedupFrom_congr (s₁ s₂ : List (CitKind × List Char)) (v : List Citation)
    (h : ∀ c ∈ v, (citeKey c ∈ s₁ ↔ citeKey c ∈ s₂)) : dedupFrom s₁ v = dedupFrom s₂ v := by
  induction v generalizing s₁ s₂ with
  | nil => rfl
  | cons c cs ih =>
    simp only [dedupFrom]
    by_cases h1 : citeKey c ∈ s₁
    · rw [if_pos h1, if_pos ((h c (by simp)).mp h1)]
      exact ih s₁ s₂ (fun d hd => h d (by simp [hd]))
    · have h2 : citeKey c ∉ s₂ := fun hx => h1 ((h c (by simp)).mpr hx)
      rw [if_neg h1, if_neg h2]
      rw [ih _ _ ?_]
      intro d hd
      simp only [List.mem_cons]
      rw [h d (by simp [hd])]

theorem doiCits_double (t : List Char) :
    doiCits ((t ++ [',']) ++ (t ++ [','])) = doiCits (t ++ [',']) ++ doiCits (t ++ [',']) := by
  unfold doiCits
  rw [findAll_double matchDoi matchDoi_sound matchDoi_prog matchDoi_cl t, List.map_append]

theorem arxivCits_double (t : List Char) :
    arxivCits ((t ++ [',']) ++ (t ++ [','])) = arxivCits (t ++ [',']) ++ arxivCits (t ++ [',']) := by
  unfold arxivCits
  rw [findAll_double matchArxiv matchArxiv_sound matchArxiv_prog matchArxiv_cl t, List.map_append]

theorem pmidCits_double (t : List Char) :
    pmidCits ((t ++ [',']) ++ (t ++ [','])) = pmidCits (t ++ [',']) ++ pmidCits (t ++ [',']) := by
  unfold pmidCits
  rw [findAll_double matchPmid matchPmid_sound matchPmid_prog matchPmid_cl t, List.map_append]

/-- Deduplicating `u ++ u ++ v ++ v ++ w ++ w` (in the source's kind-grouped
order) gives the same result as deduplicating `u ++ v ++ w`: every element of
a second copy is already seen. -/
theorem dedupFrom_doubled (u v w : List Citation) :
    dedupFrom [] (u ++ (u ++ (v ++ (v ++ (w ++ w))))) = dedupFrom [] (u ++ (v ++ w)) := by
  have hu := dedupFrom_all_seen (seenAfter [] u) u (fun c hc => key_mem_seenAfter [] u c hc)
  have hv := dedupFrom_all_seen (seenAfter (seenAfter [] u) v) v
    (fun c hc => key_mem_seenAfter (seenAfter [] u) v c hc)
  have hw := dedupFrom_all_seen
    (seenAfter (seenAfter (seenAfter [] u) v) w) w
    (fun c hc => key_mem_seenAfter (seenAfter (seenAfter [] u) v) w c hc)
  calc dedupFrom [] (u ++ (u ++ (v ++ (v ++ (w ++ w)))))
      = dedupFrom [] u ++ (dedupFrom (seenAfter [] u) u
          ++ dedupFrom (seenAfter (seenAfter [] u) u) (v ++ (v ++ (w ++ w)))) := by
        rw [dedupFrom_append, dedupFrom_append]
    _ = dedupFrom [] u ++ dedupFrom (seenAfter [] u) (v ++ (v ++ (w ++ w))) := by
        rw [hu.1, hu.2, List.nil_append]
    _ = dedupFrom [] u ++ (dedupFrom (seenAfter [] u) v
          ++ (dedupFrom (seenAfter (seenAfter [] u) v) v
            ++ dedupFrom (seenAfter (seenAfter (seenAfter [] u) v) v) (w ++ w))) := by
        rw [dedupFrom_append, dedupFrom_append]
    _ = dedupFrom [] u ++ (dedupFrom (seenAfter [] u) v
          ++ dedupFrom (seenAfter (seenAfter [] u) v) (w ++ w)) := by
        rw [hv.1, hv.2, List.nil_append]
    _ = dedupFrom [] u ++ (dedupFrom (seenAfter [] u) v
          ++ (dedupFrom (seenAfter (seenAfter [] u) v) w
            ++ dedupFrom (seenAfter (seenAfter (seenAfter [] u) v) w) w)) := by
        rw [dedupFrom_append]
    _ = dedupFrom [] u ++ (dedupFrom (seenAfter [] u) v
          ++ dedupFrom (seenAfter (seenAfter [] u) v) w) := by
        rw [hw.1, List.append_nil]
    _ = dedupFrom [] (u ++ (v ++ w)) := by
        rw [dedupFrom_append, dedupFrom_append]

/-- C2 (amended): the identifier extractor is idempotent under concatenation
for every text ending in a separator that no identifier pattern can contain
or cross — here a comma: for every `t`, extracting from
`(t ++ ",") + (t ++ ",")` yields exactly the extraction of `t ++ ","`.
(For arbitrary text the property fails: a match can span the seam,
see the counterexample.) -/
theorem claim_c2_idempotent_concat_comma_terminated (t : List Char) :
    extract_citations_from_text ((t ++ [',']) ++ (t ++ [','])) =
      extract_citations_from_text (t ++ [',']) := by
  unfold extract_citations_from_text rawCitations
  rw [doiCits_double, arxivCits_double, pmidCits_double]
  simp only [List.append_assoc]
  exact dedupFrom_doubled _ _ _

/-- C2 counterexample: the claim as stated fails — for the text
`"10.1234/ab"` (a bare DOI), the doubled text contains a single longer DOI
spanning the seam, so the deduplicated outputs differ. -/
theorem claim_c2_counterexample :
    extract_citations_from_text ("10.1234/ab".toList ++ "10.1234/ab".toList) ≠
      extract_citations_from_text "10.1234/ab".toList := by
  decide

/-!
Uniqueness and ordering of the deduplicated output (C7, C10)
-/

theorem dedupFrom_pairwise_notin (s : List (CitKind × List Char)) (v : List Citation) :
    (dedupFrom s v).Pairwise (fun a b => citeKey a ≠ citeKey b) ∧
      ∀ c ∈ dedupFrom s v, citeKey c ∉ s := by
  induction v generalizing s with
  | nil => exact ⟨List.Pairwise.nil, by simp [dedupFrom]⟩
  | cons c cs ih =>
    simp only [dedupFrom]
    by_cases h : citeKey c ∈ s
    · rw [if_pos h]
      exact ih s
    · rw [if_neg h]
      obtain ⟨hp, hnotin⟩ := ih (citeKey c :: s)
      refine ⟨List.Pairwise.cons ?_ hp, ?_⟩
      · intro b hb
        have := hnotin b hb
        simp only [List.mem_cons, not_or] at this
        exact fun hEq => this.1 hEq.symm
      · intro d hd
        rcases List.mem_cons.mp hd with rfl | hd'
        · exact h
        · have := hnotin d hd'
          simp only [List.mem_cons, not_or] at this
          exact this.2

theorem dedupFrom_sublist (s : List (CitKind × List Char)) (v : List Citation) :
    (dedupFrom s v).Sublist v := by
  induction v generalizing s with
  | nil => exact List.Sublist.refl []
  | cons c cs ih =>
    simp only [dedupFrom]
    by_cases h : citeKey c ∈ s
    · rw [if_pos h]
      exact (ih s).cons c
    · rw [if_neg h]
      exact (ih (citeKey c :: s)).cons₂ c

theorem dedupFrom_find_first (s : List (CitKind × List Char)) (v : List Citation) :
    ∀ c ∈ v, citeKey c ∉ s →
      ∃ c', v.find? (fun x => decide (citeKey x = citeKey c)) = some c' ∧
        c' ∈ dedupFrom s v := by
  induction v generalizing s with
  | nil => intro c hc; exact absurd hc (by simp)
  | cons d ds ih =>
    intro c hc hnotin
    by_cases hd : citeKey d = citeKey c
    · refine ⟨d, ?_, ?_⟩
      · rw [List.find?_cons_of_pos]
        simp [hd]
      · simp only [dedupFrom]
        rw [if_neg (hd ▸ hnotin)]
        simp
    · have hc' : c ∈ ds := by
        rcases List.mem_cons.mp hc with rfl | h
        · exact absurd rfl hd
        · exact h
      rw [List.find?_cons_of_neg _ (by simp [hd])]
      simp only [dedupFrom]
      by_cases hseen : citeKey d ∈ s
      · rw [if_pos hseen]
        exact ih s c hc' hnotin
      · rw [if_neg hseen]
        obtain ⟨c', h1, h2⟩ := ih (citeKey d :: s) c hc'
          (by simp only [List.mem_cons, not_or]; exact ⟨fun h => hd h.symm, hnotin⟩)
        exact ⟨c', h1, List.mem_cons_of_mem d h2⟩

/-- C7: the output of `extract_citations_from_text` never contains two
records with the same `(kind, id)` key; it is a subsequence of the raw scan
(insertion order preserved), and for every raw citation the record emitted
for its key is the first raw occurrence of that key. -/
theorem claim_c7_dedup_unique_first_wins (t : List Char) :
    (extract_citations_from_text t).Pairwise (fun a b => citeKey a ≠ citeKey b) ∧
    (extract_citations_from_text t).Sublist (rawCitations t) ∧
    ∀ c ∈ rawCitations t,
      ∃ c', (rawCitations t).find? (fun x => decide (citeKey x = citeKey c)) = some c' ∧
        c' ∈ extract_citations_from_text t := by
  refine ⟨(dedupFrom_pairwise_notin [] (rawCitations t)).1,
    dedupFrom_sublist [] (rawCitations t), ?_⟩
  intro c hc
  exact dedupFrom_find_first [] (rawCitations t) c hc (by simp)

/-- C7 witness: on a text with a repeated PMID the output keeps only the
first occurrence. -/
theorem claim_c7_witness :
    (extract_citations_from_text "PMID:7 PMID:7".toList).Pairwise
      (fun a b => citeKey a ≠ citeKey b) ∧
    (extract_citations_from_text "PMID:7 PMID:7".toList).Sublist
      (rawCitations "PMID:7 PMID:7".toList) ∧
    (∃ c', (rawCitations "PMID:7 PMID:7".toList).find?
        (fun x => decide (citeKey x = citeKey ⟨CitKind.pmid, "7".toList⟩)) = some c' ∧
      c' ∈ extract_citations_from_text "PMID:7 PMID:7".toList) ∧
    extract_citations_from_text "PMID:7 PMID:7".toList = [⟨CitKind.pmid, "7".toList⟩] :=
  ⟨(claim_c7_dedup_unique_first_wins _).1,
   (claim_c7_dedup_unique_first_wins _).2.1,
   (claim_c7_dedup_unique_first_wins _).2.2 ⟨CitKind.pmid, "7".toList⟩ (by decide),
   by decide⟩

theorem doiCits_kind (t : List Char) : ∀ c ∈ doiCits t, c.kind = CitKind.doi := by
  intro c hc
  obtain ⟨m, -, rfl⟩ := List.mem_map.mp hc
  rfl

theorem arxivCits_kind (t : List Char) : ∀ c ∈ arxivCits t, c.kind = CitKind.arxiv := by
  intro c hc
  obtain ⟨m, -, rfl⟩ := List.mem_map.mp hc
  rfl

theorem pmidCits_kind (t : List Char) : ∀ c ∈ pmidCits t, c.kind = CitKind.pmid := by
  intro c hc
  obtain ⟨m, -, rfl⟩ := List.mem_map.mp hc
  rfl

/-- C10: the deduplicated output is grouped by identifier kind — all DOIs
first (each group deduplicated in order of occurrence in the text), then all
arXiv ids, then all PMIDs; the kinds never interleave even when the
identifiers do in the document. -/
theorem claim_c10_grouped_by_kind (t : List Char) :
    extract_citations_from_text t =
      dedupFrom [] (doiCits t) ++ dedupFrom [] (arxivCits t) ++ dedupFrom [] (pmidCits t) ∧
    (∀ c ∈ dedupFrom [] (doiCits t), c.kind = CitKind.doi) ∧
    (∀ c ∈ dedupFrom [] (arxivCits t), c.kind = CitKind.arxiv) ∧
    (∀ c ∈ dedupFrom [] (pmidCits t), c.kind = CitKind.pmid) := by
  refine ⟨?_, ?_, ?_, ?_⟩
  · unfold extract_citations_from_text rawCitations
    rw [List.append_assoc, dedupFrom_append, dedupFrom_append]
    have hA : dedupFrom (seenAfter [] (doiCits t)) (arxivCits t) =
        dedupFrom [] (arxivCits t) := by
      apply dedupFrom_congr
      intro c hc
      simp only [List.not_mem_nil, iff_false]
      intro hmem
      rcases mem_of_mem_seenAfter [] (doiCits t) _ hmem with h1 | ⟨d, hd, hkd⟩
      · exact absurd h1 (by simp)
      · have h2 : d.kind = CitKind.doi := doiCits_kind t d hd
        have h3 : c.kind = CitKind.arxiv := arxivCits_kind t c hc
        have h4 : citeKey c = citeKey d := hkd
        unfold citeKey at h4
        rw [Prod.mk.injEq] at h4
        rw [h2, h3] at h4
        exact absurd h4.1 (by simp)
    have hP : dedupFrom (seenAfter (seenAfter [] (doiCits t)) (arxivCits t)) (pmidCits t) =
        dedupFrom [] (pmidCits t) := by
      apply dedupFrom_congr
      intro c hc
      simp only [List.not_mem_nil, iff_false]
      intro hmem
      have h3 : c.kind = CitKind.pmid := pmidCits_kind t c hc
      rcases mem_of_mem_seenAfter _ (arxivCits t) _ hmem with h1 | ⟨d, hd, hkd⟩
      · rcases mem_of_mem_seenAfter [] (doiCits t) _ h1 with h5 | ⟨d, hd, hkd⟩
        · exact absurd h5 (by simp)
        · have h2 : d.kind = CitKind.doi := doiCits_kind t d hd
          have h4 : citeKey c = citeKey d := hkd
          unfold citeKey at h4
          rw [Prod.mk.injEq] at h4
          rw [h2, h3] at h4
          exact absurd h4.1 (by simp)
      · have h2 : d.kind = CitKind.arxiv := arxivCits_kind t d hd
        have h4 : citeKey c = citeKey d := hkd
        unfold citeKey at h4
        rw [Prod.mk.injEq] at h4
        rw [h2, h3] at h4
        exact absurd h4.1 (by simp)
    rw [hA, hP, List.append_assoc]
  · intro c hc
    exact doiCits_kind t c ((dedupFrom_sublist [] (doiCits t)).subset hc)
  · intro c hc
    exact arxivCits_kind t c ((dedupFrom_sublist [] (arxivCits t)).subset hc)
  · intro c hc
    exact pmidCits_kind t c ((dedupFrom_sublist [] (pmidCits t)).subset hc)

/-- C10 witness: a text that interleaves the three kinds (PMID first in the
document) still yields DOI, then arXiv, then PMID. -/
theorem claim_c10_witness :
    extract_citations_from_text "PMID:5 arXiv:1234.5678 10.1000/ab".toList =
      dedupFrom [] (doiCits "PMID:5 arXiv:1234.5678 10.1000/ab".toList) ++
        dedupFrom [] (arxivCits "PMID:5 arXiv:1234.5678 10.1000/ab".toList) ++
        dedupFrom [] (pmidCits "PMID:5 arXiv:1234.5678 10.1000/ab".toList) ∧
    extract_citations_from_text "PMID:5 arXiv:1234.5678 10.1000/ab".toList =
      [⟨CitKind.doi, "10.1000/ab".toList⟩, ⟨CitKind.arxiv, "1234.5678".toList⟩,
        ⟨CitKind.pmid, "5".toList⟩] :=
  ⟨(claim_c10_grouped_by_kind _).1, by decide⟩

theorem foldl_max_count (sizes : List ℚ) :
    ∀ (xs : List ℚ) (x : ℚ),
      (xs.foldl (fun best y => if sizes.count best < sizes.count y then y else best) x ∈
        x :: xs) ∧
      sizes.count x ≤ sizes.count
        (xs.foldl (fun best y => if sizes.count best < sizes.count y then y else best) x) ∧
      ∀ y ∈ xs, sizes.count y ≤ sizes.count
        (xs.foldl (fun best y => if sizes.count best < sizes.count y then y else best) x) := by
  intro xs
  induction xs with
  | nil =>
    intro x
    exact ⟨by simp, le_rfl, by simp⟩
  | cons y ys ih =>
    intro x
    simp only [List.foldl_cons]
    obtain ⟨hmem, hx, hall⟩ := ih (if sizes.count x < sizes.count y then y else x)
    have hx' : sizes.count x ≤
        sizes.count (if sizes.count x < sizes.count y then y else x) := by
      split_ifs with h
      · exact le_of_lt h
      · exact le_rfl
    have hy' : sizes.count y ≤
        sizes.count (if sizes.count x < sizes.count y then y else x) := by
      split_ifs with h
      · exact le_rfl
      · exact le_of_not_lt h
    refine ⟨?_, le_trans hx' hx, ?_⟩
    · rcases List.mem_cons.mp hmem with h | h
      · rw [h]
        split_ifs with hc
        · simp
        · simp
      · simp [h]
    · intro z hz
      rcases List.mem_cons.mp hz with rfl | hz'
      · exact le_trans hy' hx
      · exact hall z hz'

/-- C3 (amended): for every block with at least one span and every valid set
iteration order, the dominant font size is a size occurring in the block's
spans whose occurrence count is maximal; which of several tied maximal sizes
is returned depends on the set iteration order, and need not be the one
encountered first when scanning the spans. -/
theorem claim_c3_dominant_is_mode (b : PdfBlock) (order : List ℚ)
    (hvalid : ValidSetOrder b order) (hne : blockSizes b ≠ []) :
    get_dominant_font_size b order ∈ blockSizes b ∧
    ∀ x ∈ blockSizes b,
      (blockSizes b).count x ≤ (blockSizes b).count (get_dominant_font_size b order) := by
  obtain ⟨hnodup, hsub, hsup⟩ := hvalid
  have horder : order ≠ [] := by
    intro h0
    obtain ⟨z, hz⟩ := List.exists_mem_of_ne_nil _ hne
    have := hsup z hz
    rw [h0] at this
    exact absurd this (by simp)
  obtain ⟨o, os, rfl⟩ : ∃ o os, order = o :: os := by
    cases order with
    | nil => exact absurd rfl horder
    | cons o os => exact ⟨o, os, rfl⟩
  unfold get_dominant_font_size
  rw [if_neg hne]
  obtain ⟨hmem, -, hall⟩ := foldl_max_count (blockSizes b) os o
  constructor
  · exact hsub _ hmem
  · intro x hx
    have hxo := hsup x hx
    rcases List.mem_cons.mp hxo with rfl | hx'
    · exact (foldl_max_count (blockSizes b) os x).2.1
    · exact hall x hx'

/-- C3 witness: a block with span sizes `[12, 10, 12, 10]` and (actual
CPython) set order `[10, 12]`. -/
theorem claim_c3_witness :
    ValidSetOrder ⟨0, 0, 0, 0, [[⟨['a'], 12⟩, ⟨['b'], 10⟩], [⟨['c'], 12⟩, ⟨['d'], 10⟩]]⟩
        [10, 12] ∧
    blockSizes ⟨0, 0, 0, 0, [[⟨['a'], 12⟩, ⟨['b'], 10⟩], [⟨['c'], 12⟩, ⟨['d'], 10⟩]]⟩ ≠ [] ∧
    get_dominant_font_size
        ⟨0, 0, 0, 0, [[⟨['a'], 12⟩, ⟨['b'], 10⟩], [⟨['c'], 12⟩, ⟨['d'], 10⟩]]⟩ [10, 12] ∈
      blockSizes ⟨0, 0, 0, 0, [[⟨['a'], 12⟩, ⟨['b'], 10⟩], [⟨['c'], 12⟩, ⟨['d'], 10⟩]]⟩ :=
  ⟨by decide, by decide,
    (claim_c3_dominant_is_mode _ [10, 12] (by decide) (by decide)).1⟩

/-- C3 counterexample: on that block the two sizes are tied (two spans
each); CPython's set iteration order for `{12.0, 10.0}` enumerates `10.0`
first (small-int hashing), so the source returns `10`, not the
first-scanned `12` the claim promises. -/
theorem claim_c3_counterexample :
    ValidSetOrder ⟨0, 0, 0, 0, [[⟨['a'], 12⟩, ⟨['b'], 10⟩], [⟨['c'], 12⟩, ⟨['d'], 10⟩]]⟩
        [10, 12] ∧
    get_dominant_font_size
        ⟨0, 0, 0, 0, [[⟨['a'], 12⟩, ⟨['b'], 10⟩], [⟨['c'], 12⟩, ⟨['d'], 10⟩]]⟩ [10, 12] = 10 ∧
    specDominantFirstScan
        ⟨0, 0, 0, 0, [[⟨['a'], 12⟩, ⟨['b'], 10⟩], [⟨['c'], 12⟩, ⟨['d'], 10⟩]]⟩ = 12 := by
  refine ⟨by decide, by decide, by decide⟩

/-- C9: the table detector never emits a row for a vertical bucket holding
fewer than 3 text blocks; every emitted row carries its bucket as
`y_position` and the page number; in particular any page with at most 2
blocks yields no table rows. -/
theorem claim_c9_min_three_aligned_blocks (blocks : List PdfBlock) (pageNum : ℕ) :
    (∀ row ∈ extract_tables_from_page blocks pageNum,
      row.page = pageNum ∧
      3 ≤ (blocks.filter (fun b => decide (bucketOf b = row.y_position))).length) ∧
    (blocks.length ≤ 2 → extract_tables_from_page blocks pageNum = []) := by
  have hmain : ∀ row ∈ extract_tables_from_page blocks pageNum,
      row.page = pageNum ∧
      3 ≤ (blocks.filter (fun b => decide (bucketOf b = row.y_position))).length := by
    intro row hrow
    obtain ⟨y, -, hy⟩ := List.mem_filterMap.mp hrow
    by_cases h3 : 3 ≤ (blocks.filter (fun b => decide (bucketOf b = y))).length
    · rw [if_pos h3] at hy
      by_cases hb : pyStrip (joinSep " | ".toList
          ((List.insertionSort xLe (blocks.filter (fun b => decide (bucketOf b = y)))).map
            (fun b => pyStrip (get_block_text b)))) ≠ []
      · rw [if_pos hb] at hy
        cases hy
        exact ⟨rfl, h3⟩
      · rw [if_neg hb] at hy
        exact absurd hy (by simp)
    · rw [if_neg h3] at hy
      exact absurd hy (by simp)
  refine ⟨hmain, ?_⟩
  intro hlen
  by_contra hne
  obtain ⟨row, hrow⟩ := List.exists_mem_of_ne_nil _ hne
  have h3 := (hmain row hrow).2
  have := List.length_filter_le (fun b => decide (bucketOf b = row.y_position)) blocks
  omega

/-- C9 witness: two blocks in the same vertical bucket yield no table
rows. -/
theorem claim_c9_witness :
    extract_tables_from_page
      [⟨0, 100, 10, 110, [[⟨"ab".toList, 10⟩]]⟩, ⟨50, 98, 60, 106, [[⟨"cd".toList, 10⟩]]⟩]
      1 = [] ∧
    bucketOf (⟨0, 100, 10, 110, [[⟨"ab".toList, 10⟩]]⟩ : PdfBlock) =
      bucketOf (⟨50, 98, 60, 106, [[⟨"cd".toList, 10⟩]]⟩ : PdfBlock) :=
  ⟨(claim_c9_min_three_aligned_blocks _ 1).2 (by decide), by with_unfolding_all decide⟩

/-- C5 (amended): after the stable sort by descending font size with ties by
ascending vertical position, the title is the stripped text of the first
block (absent when there are no page-1 blocks, with no error), and the
authors field is the stripped text of the second block exactly when that
text contains a comma or the five-character substring `" and "` (surrounded
by spaces, case-insensitive) — not an arbitrary occurrence of the word
"and".  The title block's font size is maximal among the page-1 blocks. -/
theorem claim_c5_title_authors (blocks : List MetaBlock) :
    (List.insertionSort metaLe (blocks.filter (fun b => decide (b.page = 1)))).Perm
      (blocks.filter (fun b => decide (b.page = 1))) ∧
    List.Sorted metaLe
      (List.insertionSort metaLe (blocks.filter (fun b => decide (b.page = 1)))) ∧
    (paperTitleAuthors blocks).1 =
      (List.insertionSort metaLe (blocks.filter (fun b => decide (b.page = 1)))).head?.map
        (fun b => pyStrip b.text) ∧
    (paperTitleAuthors blocks).2 =
      (match List.insertionSort metaLe (blocks.filter (fun b => decide (b.page = 1))) with
        | _ :: b2 :: _ =>
          if authorsGuard (pyStrip b2.text) then some (pyStrip b2.text) else none
        | _ => none) ∧
    ∀ t, (paperTitleAuthors blocks).1 = some t →
      ∃ b ∈ blocks.filter (fun b => decide (b.page = 1)), t = pyStrip b.text ∧
        ∀ b' ∈ blocks.filter (fun b => decide (b.page = 1)), b'.font_size ≤ b.font_size := by
  refine ⟨List.perm_insertionSort metaLe _, List.sorted_insertionSort metaLe _, ?_, ?_, ?_⟩
  · unfold paperTitleAuthors
    rcases List.insertionSort metaLe (blocks.filter (fun b => decide (b.page = 1))) with
      _ | ⟨b, rest⟩
    · rfl
    · rfl
  · unfold paperTitleAuthors
    rcases List.insertionSort metaLe (blocks.filter (fun b => decide (b.page = 1))) with
      _ | ⟨b, _ | ⟨b2, rest⟩⟩
    · rfl
    · rfl
    · rfl
  · intro t ht
    unfold paperTitleAuthors at ht
    rcases hsort : List.insertionSort metaLe (blocks.filter (fun b => decide (b.page = 1)))
      with _ | ⟨b, rest⟩
    · rw [hsort] at ht
      exact absurd ht (by simp)
    · rw [hsort] at ht
      simp only [Prod.fst, Option.some.injEq] at ht
      refine ⟨b, ?_, ht.symm, ?_⟩
      · have hperm := List.perm_insertionSort metaLe
          (blocks.filter (fun b => decide (b.page = 1)))
        rw [hsort] at hperm
        exact hperm.mem_iff.mp (by simp)
      · intro b' hb'
        have hperm := List.perm_insertionSort metaLe
          (blocks.filter (fun b => decide (b.page = 1)))
        rw [hsort] at hperm
        have hb'sort : b' ∈ b :: rest := hperm.mem_iff.mpr hb'
        rcases List.mem_cons.mp hb'sort with rfl | hb'rest
        · exact le_rfl
        · have hsorted := List.sorted_insertionSort metaLe
            (blocks.filter (fun b => decide (b.page = 1)))
          rw [hsort] at hsorted
          have hle : metaLe b b' := (List.sorted_cons.mp hsorted).1 b' hb'rest
          rcases hle with h | ⟨h, -⟩
          · exact le_of_lt h
          · exact le_of_eq h.symm

/-- C5 witness: a large-font title block and a second block
`"Alice, Bob"`. -/
theorem claim_c5_witness :
    (paperTitleAuthors
      [⟨1, "A Title".toList, 20, 0⟩, ⟨1, "Alice, Bob".toList, 10, 5⟩]).1 =
        some "A Title".toList ∧
    (paperTitleAuthors
      [⟨1, "A Title".toList, 20, 0⟩, ⟨1, "Alice, Bob".toList, 10, 5⟩]).2 =
        some "Alice, Bob".toList ∧
    (∃ b ∈ ([⟨1, "A Title".toList, 20, 0⟩, ⟨1, "Alice, Bob".toList, 10, 5⟩] :
        List MetaBlock).filter (fun b => decide (b.page = 1)),
      "A Title".toList = pyStrip b.text ∧
      ∀ b' ∈ ([⟨1, "A Title".toList, 20, 0⟩, ⟨1, "Alice, Bob".toList, 10, 5⟩] :
          List MetaBlock).filter (fun b => decide (b.page = 1)),
        b'.font_size ≤ b.font_size) :=
  ⟨by with_unfolding_all decide, by with_unfolding_all decide,
    (claim_c5_title_authors
      [⟨1, "A Title".toList, 20, 0⟩, ⟨1, "Alice, Bob".toList, 10, 5⟩]).2.2.2.2
      "A Title".toList (by with_unfolding_all decide)⟩

/-- C5 counterexample: a second block whose stripped text is
`"And Someone Else"` contains the word "and" (case-insensitively) but not
the substring `" and "`, so the source leaves `authors` absent although the
claim requires it to be populated. -/
theorem claim_c5_counterexample :
    (paperTitleAuthors
      [⟨1, "A Title".toList, 20, 0⟩, ⟨1, "And Someone Else".toList, 10, 5⟩]).2 = none ∧
    specAuthorsGuardWord (pyStrip "And Someone Else".toList) = true ∧
    ("And Someone Else".toList.contains ',') = false := by
  refine ⟨by with_unfolding_all decide, by decide, by decide⟩

/-- C4 (amended): a trimmed entry appears in the output exactly when it is
strictly longer than 20 characters (entries of exactly 20 characters are
discarded, against the claim's "not shorter than 20"); survivors are capped
at 500 characters and at most 100 entries are returned, earliest first. -/
theorem claim_c4_reference_filtering (refText : List Char) :
    (extract_references_span refText).length ≤ 100 ∧
    (∀ e ∈ extract_references_span refText, e.length ≤ 500) ∧
    extract_references_span refText =
      ((((pySplit enumDelim refText).map pyStrip).filter
          (fun e => decide (20 < e.length))).map (fun e => e.take 500)).take 100 := by
  refine ⟨?_, ?_, ?_⟩
  · exact List.length_take_le 100 _
  · intro e he
    have he1 := List.mem_of_mem_take he
    obtain ⟨x, -, rfl⟩ := List.mem_map.mp he1
    have := List.length_take 500 x
    omega
  · unfold extract_references_span
    congr 2
    apply List.filter_congr
    intro e _
    by_cases h : 20 < e.length
    · have hne : e ≠ [] := by
        intro h0
        rw [h0] at h
        simp at h
      simp [h, hne]
    · simp [h]

/-- C4 counterexample: a span that is one 20-character entry.  The claim
("not shorter than 20 characters" survives) predicts one reference; the
source's strict `> 20` comparison discards it. -/
theorem claim_c4_counterexample :
    extract_references_span (List.replicate 20 'a') = [] ∧
    (pySplit enumDelim (List.replicate 20 'a')).map pyStrip = [List.replicate 20 'a'] ∧
    (List.replicate 20 'a').length = 20 := by
  refine ⟨by decide, by decide, by decide⟩

/-- C4 witness: the spec's own test vector — the span
`"[1] Short.\n[2] A sufficiently long reference entry describing a study."`
yields exactly the long second entry. -/
theorem claim_c4_witness :
    extract_references_span
        "[1] Short.\n[2] A sufficiently long reference entry describing a study.".toList =
      ["A sufficiently long reference entry describing a study.".toList] ∧
    "A sufficiently long reference entry describing a study.".toList.length ≤ 500 :=
  ⟨by decide,
    (claim_c4_reference_filtering
      "[1] Short.\n[2] A sufficiently long reference entry describing a study.".toList).2.1
      "A sufficiently long reference entry describing a study.".toList (by decide)⟩

theorem findSome?_isSome_iff {α β : Type} (f : α → Option β) (l : List α) :
    (l.findSome? f).isSome ↔ ∃ x ∈ l, (f x).isSome := by
  induction l with
  | nil => simp [List.findSome?]
  | cons a as ih =>
    rw [List.findSome?]
    rcases hf : f a with _ | b
    · simp only [List.mem_cons]
      rw [ih]
      constructor
      · rintro ⟨x, hx, hfx⟩
        exact ⟨x, Or.inr hx, hfx⟩
      · rintro ⟨x, hx | hx, hfx⟩
        · rw [hx, hf] at hfx
          exact absurd hfx (by simp)
        · exact ⟨x, hx, hfx⟩
    · simp only [Option.isSome_some, true_iff]
      exact ⟨a, by simp, by simp [hf]⟩

theorem termAt_lt (text : List Char) (p : ℕ) (h : termAt text p = true) : p < text.length := by
  unfold termAt at h
  simp only [Bool.and_eq_true, decide_eq_true_eq] at h
  obtain ⟨hw, -⟩ := List.get?_eq_some.mp h.1
  exact hw

theorem firstTermFrom_isSome_iff (text : List Char) (lo : ℕ) :
    (firstTermFrom text lo).isSome ↔ ∃ p, lo ≤ p ∧ termAt text p = true := by
  constructor
  · intro h
    obtain ⟨p, hp⟩ := Option.isSome_iff_exists.mp h
    have h1 := List.mem_of_find?_eq_some hp
    have h2 := List.find?_some hp
    have h3 := (List.mem_range'_1.mp h1).1
    exact ⟨p, h3, h2⟩
  · rintro ⟨p, hlo, hterm⟩
    have hpL : p < text.length := termAt_lt text p hterm
    rw [Option.isSome_iff_ne_none]
    intro hnone
    have := List.find?_eq_none.mp hnone p (List.mem_range'_1.mpr ⟨hlo, by omega⟩)
    exact this hterm

theorem tryCapture_isSome_iff (text : List Char) (j2 : ℕ) :
    ∀ n, (tryCapture text j2 n).isSome ↔ ∃ p, j2 + 1 ≤ p ∧ termAt text p = true := by
  intro n
  induction n with
  | zero =>
    unfold tryCapture
    rcases hf : firstTermFrom text (j2 + 1) with _ | p
    · simp only [Option.isSome_none, Bool.false_eq_true, false_iff]
      intro hex
      have := (firstTermFrom_isSome_iff text (j2 + 1)).mpr hex
      rw [hf] at this
      exact absurd this (by simp)
    · simp only [Option.isSome_some, true_iff]
      have := (firstTermFrom_isSome_iff text (j2 + 1)).mp (by rw [hf]; rfl)
      exact this
  | succ n ih =>
    unfold tryCapture
    by_cases hsep : isSepSpan (seg text j2 (j2 + n + 1)) = true
    · rw [if_pos hsep]
      rcases hf : firstTermFrom text (j2 + n + 1 + 1) with _ | p
      · exact ih
      · simp only [Option.isSome_some, true_iff]
        obtain ⟨p', hp1, hp2⟩ := (firstTermFrom_isSome_iff text (j2 + n + 1 + 1)).mp
          (by rw [hf]; rfl)
        exact ⟨p', by omega, hp2⟩
    · rw [if_neg hsep]
      exact ih

/-- C6: the abstract field is populated exactly when some anchored
case-insensitive `ABSTRACT` header line is followed (strictly beyond the
header) by a terminator line matching `INTRODUCTION`, `1.` or `KEYWORDS`;
when the lookahead never matches there is no partial capture (the result is
absent), and any populated value is the trimmed capture truncated to at
most 2000 characters. -/
theorem claim_c6_abstract_terminated_iff (text : List Char) :
    ((find_abstract text).isSome ↔
      ∃ w ∈ abstractAnchors text,
        ciAt text "abstract".toList (w + wsRunFrom text w) = true ∧
        ∃ p, w + wsRunFrom text w + 8 + 1 ≤ p ∧ termAt text p = true) ∧
    ((∀ p, p < text.length → termAt text p = false) → find_abstract text = none) ∧
    (∀ a, find_abstract text = some a → a.length ≤ 2000) := by
  have hiff : (find_abstract text).isSome ↔
      ∃ w ∈ abstractAnchors text,
        ciAt text "abstract".toList (w + wsRunFrom text w) = true ∧
        ∃ p, w + wsRunFrom text w + 8 + 1 ≤ p ∧ termAt text p = true := by
    unfold find_abstract
    have hmapiso : ∀ (o : Option (List Char)) (f : List Char → List Char),
        (o.map f).isSome = o.isSome := by
      intro o f
      cases o <;> rfl
    rw [hmapiso, findSome?_isSome_iff]
    constructor
    · rintro ⟨w, hw, hsome⟩
      unfold attemptAbstract at hsome
      by_cases hci : ciAt text "abstract".toList (w + wsRunFrom text w) = true
      · rw [if_pos hci] at hsome
        obtain ⟨p, hp1, hp2⟩ := (tryCapture_isSome_iff text _ _).mp hsome
        exact ⟨w, hw, hci, p, hp1, hp2⟩
      · rw [if_neg hci] at hsome
        exact absurd hsome (by simp)
    · rintro ⟨w, hw, hci, p, hp1, hp2⟩
      refine ⟨w, hw, ?_⟩
      unfold attemptAbstract
      rw [if_pos hci]
      exact (tryCapture_isSome_iff text _ _).mpr ⟨p, hp1, hp2⟩
  refine ⟨hiff, ?_, ?_⟩
  · intro hno
    rw [← Option.not_isSome_iff_eq_none, hiff]
    rintro ⟨w, -, -, p, -, hterm⟩
    rcases lt_or_le p text.length with hp | hp
    · rw [hno p hp] at hterm
      exact absurd hterm (by simp)
    · have := termAt_lt text p hterm
      omega
  · intro a ha
    unfold find_abstract at ha
    rcases hfs : (abstractAnchors text).findSome? (fun w => attemptAbstract text w) with
      _ | cap
    · rw [hfs] at ha
      exact absurd ha (by simp)
    · rw [hfs] at ha
      simp only [Option.map_some', Option.some.injEq] at ha
      rw [← ha]
      have := List.length_take 2000 (pyStrip cap)
      omega

/-- C6 witness: an unterminated abstract yields no partial capture, and a
properly terminated one yields the trimmed span. -/
theorem claim_c6_witness :
    find_abstract "ABSTRACT\nstuff with no end marker".toList = none ∧
    find_abstract "ABSTRACT\nGood stuff here.\nINTRODUCTION\nBody".toList =
      some "Good stuff here.".toList :=
  ⟨(claim_c6_abstract_terminated_iff "ABSTRACT\nstuff with no end marker".toList).2.1
      (by decide),
   by decide⟩
